import Mathlib

/-!
Shallow embedding of ncollide's brute-force GJK simplex solver
(`src/narrow/algorithm/brute_force_simplex.rs`) and of the annotated
Minkowski-sum point type (`src/geom/minkowski_sum.rs`), together with proofs
about them.

The Rust code is generic over a vector type `_V : FloatVec<Scalar>` of a fixed
dimension `n`.  We embed vectors as `Fin n → ℚ`: exact rational arithmetic in
place of floating point, so that the algebraic behaviour of the algorithm is
provable; `na::dot`, `na::sub_dot`, `na::sqnorm` become the usual bilinear
operations on `Fin n → ℚ`.  Comparisons between two Euclidean norms
(`na::norm(p) > na::norm(q)`) are embedded as comparisons of squared norms,
which order identically (square root is strictly monotone on nonnegative
reals); squared norms keep every quantity rational.

`DMat::inv` is external code (nalgebra): Gauss-Jordan elimination that returns
`false` exactly on a singular matrix and otherwise replaces the matrix by its
exact inverse.  That contract is embedded by testing `Matrix.det = 0` and
reading the first column of the mathematical inverse off `Matrix.adjugate`
(Cramer's rule); only the first column of the inverse is ever used by the
code.

A Rust `fail!` or a failed `assert!` (fatal abort) is embedded as `none`.
-/

/-- The `n`-dimensional vector type `math::Vect` (`_V` in the Rust source). -/
abbrev Vect (n : ℕ) : Type := Fin n → ℚ

/-- `na::dot`. -/
def dot {n : ℕ} (a b : Vect n) : ℚ := ∑ i, a i * b i

/-- `na::sub_dot(a, b, c)`, which is `dot(a - b, c)`. -/
def sub_dot {n : ℕ} (a b c : Vect n) : ℚ := dot (a - b) c

/-- `na::sqnorm`. -/
def sqnorm {n : ℕ} (a : Vect n) : ℚ := dot a a

/-- Componentwise division of a vector by a scalar (`v / c` in the Rust code). -/
def vdiv {n : ℕ} (v : Vect n) (c : ℚ) : Vect n := fun i => v i / c

/-- The `k×k` linear system assembled by `project_on_subsimplex`: the first row
is all ones, and row `i ≥ 1`, column `j` holds
`na::sub_dot(points[i], points[0], points[j])`. -/
def simplexMat {n : ℕ} (points : List (Vect n)) :
    Matrix (Fin points.length) (Fin points.length) ℚ :=
  Matrix.of fun i j =>
    if i.1 = 0 then 1
    else sub_dot (points.get i) (points.get ⟨0, i.pos⟩) (points.get j)

/-- The first column of the inverse of `M`, via Cramer's rule
(`adjugate / det`); entry `i` is what the Rust code reads back as
`mat.at((i, 0))` after `mat.inv()` succeeded. -/
def invFirstCol {k : ℕ} (M : Matrix (Fin k) (Fin k) ℚ) : Fin k → ℚ :=
  fun i => M.adjugate i ⟨0, i.pos⟩ / M.det

/-- `BruteForceSimplex::project_on_subsimplex`.  Builds `simplexMat`, inverts
it (`none` on a singular system), and accepts the candidate only if every
unnormalized weight read from the first column of the inverse is strictly
positive, returning the weight-sum-normalized combination of the points.
The Rust loop scans the weights in index order and bails out at the first
nonpositive one while accumulating the positive ones; in exact arithmetic that
is the same as checking all weights and summing, as done here. -/
def project_on_subsimplex {n : ℕ} (points : List (Vect n)) : Option (Vect n) :=
  let M := simplexMat points
  if M.det = 0 then none
  else if ∀ i, 0 < invFirstCol M i then
    some (vdiv (∑ i, invFirstCol M i • points.get i) (∑ i, invFirstCol M i))
  else none

/-- One iteration of the best-candidate update inside the loop of
`project_on_subsimplices`: the two consecutive `match bestproj` blocks of the
Rust code, both of which test the same condition
`na::norm(best) > na::norm(candidate)` against the *old* best value (embedded
as a squared-norm comparison, see the header). -/
def step {n : ℕ} (best : Option (Vect n) × List (Vect n))
    (cand : Vect n × List (Vect n)) : Option (Vect n) × List (Vect n) :=
  (match best.1 with
   | some p => if sqnorm p > sqnorm cand.1 then some cand.1 else some p
   | none => some cand.1,
   match best.1 with
   | some p => if sqnorm p > sqnorm cand.1 then cand.2 else best.2
   | none => cand.2)

/-- `BruteForceSimplex::project_on_subsimplices`.  A single point is its own
projection; otherwise the candidate of the full point set is computed by
`project_on_subsimplex` and compared against the recursive result of every
`remove one point` subsimplex.  The final `bestproj.unwrap()` cannot fail
(for a list of length ≠ 1 the fold starts from a `some` or performs at least
one `step`, and `step` always produces a `some`); the unwrap is embedded as
`Option.getD` with an arbitrary default. -/
def project_on_subsimplices {n : ℕ} (points : List (Vect n)) :
    Vect n × List (Vect n) :=
  if h : points.length = 1 then (points.get ⟨0, by omega⟩, points)
  else
    let r :=
      (List.range points.length).attach.foldl
        (fun best i =>
          step best (project_on_subsimplices (points.eraseIdx i.1)))
        (project_on_subsimplex points, points)
    (r.1.getD 0, r.2)
termination_by points.length
decreasing_by
  have hi : i.1 < points.length := by
    have h2 := i.2
    simpa [List.mem_range] using h2
  have h3 : (points.eraseIdx i.1).length = points.length - 1 := by
    rw [List.length_eraseIdx]
    simp [hi]
  omega

/-- The state of the reference solver: its point list. -/
structure BruteForceSimplex (n : ℕ) where
  points : List (Vect n)

/-- `BruteForceSimplex::new`. -/
def BruteForceSimplex.new (n : ℕ) : BruteForceSimplex n := ⟨[]⟩

/-- The inherent `BruteForceSimplex::add_point` (no capacity check). -/
def add_point_unchecked {n : ℕ} (s : BruteForceSimplex n) (pt : Vect n) :
    BruteForceSimplex n := ⟨s.points ++ [pt]⟩

/-- `Simplex::reset`: clear the list, then push the initial point. -/
def reset {n : ℕ} (_s : BruteForceSimplex n) (initial_point : Vect n) :
    BruteForceSimplex n := ⟨[initial_point]⟩

/-- `Simplex::dimension`: `self.points.len() - 1` computed in unsigned machine
arithmetic of width `w` (Rust `uint`), i.e. wrapping subtraction mod `2^w`. -/
def dimension (w : ℕ) {n : ℕ} (s : BruteForceSimplex n) : ℕ :=
  (s.points.length + (2 ^ w - 1)) % 2 ^ w

/-- `Simplex::max_sq_len`: fold keeping the largest squared norm seen. -/
def max_sq_len {n : ℕ} (s : BruteForceSimplex n) : ℚ :=
  s.points.foldl (fun acc p => if sqnorm p > acc then sqnorm p else acc) 0

/-- `Simplex::contains_point`: exact (bitwise, no epsilon) equality against
every held point. -/
def contains_point {n : ℕ} (s : BruteForceSimplex n) (pt : Vect n) : Bool :=
  s.points.any fun v => decide (pt = v)

/-- The `Simplex` trait impl of `add_point`:
`assert!(self.points.len() <= na::dim::<_V>())`, then push.  A failed assert
is the fatal abort `none`. -/
def add_point {n : ℕ} (s : BruteForceSimplex n) (pt : Vect n) :
    Option (BruteForceSimplex n) :=
  if s.points.length ≤ n then some ⟨s.points ++ [pt]⟩ else none

/-- `BruteForceSimplex::do_project_origin`: run the recursive search on the
held points, replace the held list with the reduction when `reduce` is set,
and return the projection. -/
def do_project_origin {n : ℕ} (s : BruteForceSimplex n) (reduce : Bool) :
    Vect n × BruteForceSimplex n :=
  let rr := project_on_subsimplices s.points
  (rr.1, if reduce then ⟨rr.2⟩ else s)

/-- `Simplex::project_origin_and_reduce`: calls `do_project_origin(true)`
directly, with no emptiness check; the `Option` records that a fatal abort
(`none`) never happens on this path. -/
def project_origin_and_reduce {n : ℕ} (s : BruteForceSimplex n) :
    Option (Vect n × BruteForceSimplex n) :=
  some (do_project_origin s true)

/-- `Simplex::project_origin`: `fail!` (= `none`) on an empty simplex, else
`do_project_origin(false)`. -/
def project_origin {n : ℕ} (s : BruteForceSimplex n) :
    Option (Vect n × BruteForceSimplex n) :=
  if s.points.isEmpty then none else some (do_project_origin s false)

/-- `Simplex::translate_by`: `*p = *p + *v` for every held point. -/
def translate_by {n : ℕ} (s : BruteForceSimplex n) (v : Vect n) :
    BruteForceSimplex n := ⟨s.points.map fun p => p + v⟩

/-! ### AnnotatedPoint (`src/geom/minkowski_sum.rs`) -/

/-- `AnnotatedPoint`: a point of the combined (difference) space together with
the two per-primitive witness points. -/
structure AnnotatedPoint (n : ℕ) where
  orig1 : Vect n
  orig2 : Vect n
  point : Vect n

/-- `AnnotatedPoint::new_invalid`: zero witnesses. -/
def AnnotatedPoint.new_invalid {n : ℕ} (point : Vect n) : AnnotatedPoint n :=
  ⟨0, 0, point⟩

/-- The `Zero` impl: all three fields zero. -/
def aZero (n : ℕ) : AnnotatedPoint n := ⟨0, 0, 0⟩

/-- The `Zero::is_zero` impl: tests only the combined point. -/
def aIsZero {n : ℕ} (a : AnnotatedPoint n) : Bool := decide (a.point = 0)

/-- The `Sub` impl for `AnnotatedPoint`. -/
def aSub {n : ℕ} (a b : AnnotatedPoint n) : AnnotatedPoint n :=
  ⟨a.orig1 - b.orig1, a.orig2 - b.orig2, a.point - b.point⟩

/-- The `Add` impl for `AnnotatedPoint`. -/
def aAdd {n : ℕ} (a b : AnnotatedPoint n) : AnnotatedPoint n :=
  ⟨a.orig1 + b.orig1, a.orig2 + b.orig2, a.point + b.point⟩

/-- The `Neg` impl for `AnnotatedPoint`. -/
def aNeg {n : ℕ} (a : AnnotatedPoint n) : AnnotatedPoint n :=
  ⟨-a.orig1, -a.orig2, -a.point⟩

/-- The `Div<Scalar>` impl for `AnnotatedPoint`. -/
def aDiv {n : ℕ} (a : AnnotatedPoint n) (c : ℚ) : AnnotatedPoint n :=
  ⟨vdiv a.orig1 c, vdiv a.orig2 c, vdiv a.point c⟩

/-- The `Mul<Scalar>` impl for `AnnotatedPoint`. -/
def aMul {n : ℕ} (a : AnnotatedPoint n) (c : ℚ) : AnnotatedPoint n :=
  ⟨c • a.orig1, c • a.orig2, c • a.point⟩

/-- The `Dot` impl: only the combined points are dotted. -/
def aDot {n : ℕ} (a b : AnnotatedPoint n) : ℚ := dot a.point b.point

/-- The `Norm::sqnorm` impl: only the combined point. -/
def aSqnorm {n : ℕ} (a : AnnotatedPoint n) : ℚ := sqnorm a.point

/-- The `PartialEq` impl: compares only the combined point, never the
witnesses. -/
def aEq {n : ℕ} (a b : AnnotatedPoint n) : Prop := a.point = b.point

/-- `na::approx_eq_eps` on plain vectors (external nalgebra contract:
componentwise comparison within `eps`). -/
def approx_eq_eps {n : ℕ} (a b : Vect n) (eps : ℚ) : Prop :=
  ∀ i, |a i - b i| ≤ eps

/-- The `ApproxEq` impl for `AnnotatedPoint`: delegates to the combined
points only. -/
def aApproxEqEps {n : ℕ} (a b : AnnotatedPoint n) (eps : ℚ) : Prop :=
  approx_eq_eps a.point b.point eps

/-! ### Algebra of `dot`, `sqnorm` and weighted combinations -/

theorem dot_comm {n : ℕ} (a b : Vect n) : dot a b = dot b a := by
  unfold dot
  exact Finset.sum_congr rfl fun i _ => mul_comm _ _

theorem dot_add_right {n : ℕ} (a b c : Vect n) :
    dot a (b + c) = dot a b + dot a c := by
  simp [dot, mul_add, Finset.sum_add_distrib]

theorem dot_smul_right {n : ℕ} (c : ℚ) (a b : Vect n) :
    dot a (c • b) = c * dot a b := by
  simp [dot, Finset.mul_sum]
  exact Finset.sum_congr rfl fun i _ => by ring

theorem dot_sub_right {n : ℕ} (a b c : Vect n) :
    dot a (b - c) = dot a b - dot a c := by
  simp [dot, mul_sub, Finset.sum_sub_distrib]

theorem dot_smul_left {n : ℕ} (c : ℚ) (a b : Vect n) :
    dot (c • a) b = c * dot a b := by
  rw [dot_comm, dot_smul_right, dot_comm]

theorem dot_sub_left {n : ℕ} (a b c : Vect n) :
    dot (a - b) c = dot a c - dot b c := by
  rw [dot_comm, dot_sub_right, dot_comm c a, dot_comm c b]

theorem dot_zero_right {n : ℕ} (a : Vect n) : dot a 0 = 0 := by
  simp [dot]

theorem dot_sum_right {n : ℕ} {ι : Type} (s : Finset ι) (a : Vect n)
    (f : ι → Vect n) : dot a (∑ i ∈ s, f i) = ∑ i ∈ s, dot a (f i) := by
  simp only [dot, Finset.sum_apply, Finset.mul_sum]
  rw [Finset.sum_comm]

theorem sqnorm_nonneg {n : ℕ} (a : Vect n) : 0 ≤ sqnorm a :=
  Finset.sum_nonneg fun i _ => mul_self_nonneg (a i)

theorem sqnorm_eq_zero {n : ℕ} (a : Vect n) : sqnorm a = 0 ↔ a = 0 := by
  constructor
  · intro h
    unfold sqnorm dot at h
    funext i
    have h2 := (Finset.sum_eq_zero_iff_of_nonneg
      (fun j _ => mul_self_nonneg (a j))).1 h i (Finset.mem_univ i)
    simpa [mul_self_eq_zero] using h2
  · intro h
    simp [h, sqnorm, dot]

theorem sqnorm_add_of_orth {n : ℕ} {a b : Vect n} (h : dot a b = 0) :
    sqnorm (a + b) = sqnorm a + sqnorm b := by
  unfold sqnorm
  rw [dot_add_right, dot_comm (a + b) a, dot_comm (a + b) b,
    dot_add_right, dot_add_right, dot_comm b a]
  ring_nf
  rw [h]
  ring

theorem sqnorm_smul {n : ℕ} (c : ℚ) (a : Vect n) :
    sqnorm (c • a) = c ^ 2 * sqnorm a := by
  unfold sqnorm
  rw [dot_smul_left, dot_smul_right]
  ring

/-- The weighted combination `∑ i, w i • points[i]` of a point list. -/
def combo {n : ℕ} (points : List (Vect n)) (w : Fin points.length → ℚ) :
    Vect n := ∑ i, w i • points.get i

theorem combo_add {n : ℕ} (points : List (Vect n))
    (w x : Fin points.length → ℚ) :
    combo points (w + x) = combo points w + combo points x := by
  simp [combo, add_smul, Finset.sum_add_distrib]

theorem combo_sub {n : ℕ} (points : List (Vect n))
    (w x : Fin points.length → ℚ) :
    combo points (w - x) = combo points w - combo points x := by
  simp [combo, sub_smul, Finset.sum_sub_distrib]

theorem combo_smul {n : ℕ} (points : List (Vect n)) (c : ℚ)
    (w : Fin points.length → ℚ) :
    combo points (c • w) = c • combo points w := by
  simp [combo, Finset.smul_sum, smul_smul]

/-! ### Convex-hull membership via list-indexed weights -/

theorem combo_mem_convexHull {n : ℕ} (points : List (Vect n))
    (w : Fin points.length → ℚ) (hw : ∀ i, 0 ≤ w i) (h1 : ∑ i, w i = 1) :
    combo points w ∈ convexHull ℚ {x | x ∈ points} :=
  mem_convexHull_of_exists_fintype w points.get hw h1
    (fun i => points.get_mem i.1 i.2) rfl

theorem get_mem_eraseIdx {α : Type} (l : List α) (i j : Fin l.length)
    (hne : i ≠ j) : l.get i ∈ l.eraseIdx j.1 := by
  have hij : i.1 ≠ j.1 := fun h => hne (Fin.ext h)
  have hjl : j.1 < l.length := j.2
  have hlen : (l.eraseIdx j.1).length = l.length - 1 := by
    rw [List.length_eraseIdx]
    simp [hjl]
  rcases Nat.lt_or_ge i.1 j.1 with hlt | hge
  · have hb : i.1 < (l.eraseIdx j.1).length := by omega
    have : (l.eraseIdx j.1)[i.1] = l[i.1] := by
      rw [List.getElem_eraseIdx]
      simp [hlt]
    have hm := List.getElem_mem hb
    rw [this] at hm
    simpa [List.get_eq_getElem] using hm
  · have hgt : j.1 < i.1 := by omega
    have hb : i.1 - 1 < (l.eraseIdx j.1).length := by
      have := i.2
      omega
    have : (l.eraseIdx j.1)[i.1 - 1] = l[i.1 - 1 + 1] := by
      rw [List.getElem_eraseIdx]
      have : ¬ (i.1 - 1 < j.1) := by omega
      simp [this]
    have heq : i.1 - 1 + 1 = i.1 := by omega
    have hm := List.getElem_mem hb
    rw [this] at hm
    simp only [List.get_eq_getElem]
    have : l[i.1 - 1 + 1] = l[i.1] := by
      congr 1
    rw [← this]
    exact hm

theorem combo_mem_convexHull_eraseIdx {n : ℕ} (points : List (Vect n))
    (w : Fin points.length → ℚ) (j : Fin points.length)
    (hw : ∀ i, 0 ≤ w i) (h1 : ∑ i, w i = 1) (hj : w j = 0)
    (hne : points.eraseIdx j.1 ≠ []) :
    combo points w ∈ convexHull ℚ {x | x ∈ points.eraseIdx j.1} := by
  obtain ⟨e, he⟩ := List.exists_mem_of_ne_nil _ hne
  apply mem_convexHull_of_exists_fintype w
    (fun i => if i = j then e else points.get i) hw h1
  · intro i
    by_cases hij : i = j
    · simpa [hij] using he
    · simpa [hij] using get_mem_eraseIdx points i j hij
  · unfold combo
    apply Finset.sum_congr rfl
    intro i _
    by_cases hij : i = j
    · simp [hij, hj]
    · simp [hij]

theorem sum_get_eq_sum_toFinset {α : Type} {M : Type} [DecidableEq α]
    [AddCommMonoid M] (l : List α) (f : α → M) :
    ∑ i, f (l.get i) = ∑ y ∈ l.toFinset, l.count y • f y := by
  have h1 : List.ofFn (fun i => f (l.get i)) = l.map f := by
    have h0 := List.map_ofFn l.get f
    rw [List.ofFn_get] at h0
    rw [h0]
    rfl
  have h2 := List.sum_ofFn (f := fun i => f (l.get i))
  rw [h1] at h2
  rw [← h2]
  exact Finset.sum_list_map_count l f

theorem exists_weights_of_mem_convexHull {n : ℕ} {points : List (Vect n)}
    {q : Vect n} (h : q ∈ convexHull ℚ {x | x ∈ points}) :
    ∃ w : Fin points.length → ℚ,
      (∀ i, 0 ≤ w i) ∧ ∑ i, w i = 1 ∧ q = combo points w := by
  rw [← List.coe_toFinset, Finset.mem_convexHull'] at h
  obtain ⟨w, hw0, hw1, hwq⟩ := h
  refine ⟨fun i => w (points.get i) / points.count (points.get i), ?_, ?_, ?_⟩
  · intro i
    exact div_nonneg
      (hw0 _ (List.mem_toFinset.2 (points.get_mem i.1 i.2)))
      (by positivity)
  · rw [sum_get_eq_sum_toFinset points
      (fun y => w y / (points.count y : ℚ))]
    rw [← hw1]
    apply Finset.sum_congr rfl
    intro y hy
    have hc : 0 < points.count y := List.count_pos_iff.2 (List.mem_toFinset.1 hy)
    have hc2 : ((points.count y : ℚ)) ≠ 0 := by exact_mod_cast hc.ne'
    rw [nsmul_eq_mul]
    field_simp
  · rw [← hwq]
    unfold combo
    rw [sum_get_eq_sum_toFinset points
      (fun y => (w y / (points.count y : ℚ)) • y)]
    apply Finset.sum_congr rfl
    intro y hy
    have hc : 0 < points.count y := List.count_pos_iff.2 (List.mem_toFinset.1 hy)
    have hc2 : ((points.count y : ℚ)) ≠ 0 := by exact_mod_cast hc.ne'
    rw [← Nat.cast_smul_eq_nsmul ℚ, smul_smul]
    congr 1
    field_simp

theorem hull_mono_of_sublist {n : ℕ} {l1 l2 : List (Vect n)} (h : List.Sublist l1 l2) :
    convexHull ℚ {x | x ∈ l1} ⊆ convexHull ℚ {x | x ∈ l2} :=
  convexHull_mono fun _ hx => h.subset hx

/-! ### The linear system solved by `project_on_subsimplex` -/

theorem simplexMat_mulVec {n : ℕ} (points : List (Vect n))
    (x : Fin points.length → ℚ) (i : Fin points.length) :
    (simplexMat points).mulVec x i =
      if i.1 = 0 then ∑ j, x j
      else dot (points.get i - points.get ⟨0, i.pos⟩) (combo points x) := by
  simp only [Matrix.mulVec, Matrix.dotProduct, simplexMat, Matrix.of_apply]
  by_cases h : i.1 = 0
  · simp [h]
  · simp only [h, if_false]
    unfold sub_dot combo
    rw [dot_sum_right]
    apply Finset.sum_congr rfl
    intro j _
    rw [dot_smul_right]
    ring

theorem invFirstCol_mulVec {k : ℕ} (M : Matrix (Fin k) (Fin k) ℚ)
    (hdet : M.det ≠ 0) (hk : 0 < k) (i : Fin k) :
    M.mulVec (invFirstCol M) i = if i.1 = 0 then 1 else 0 := by
  simp only [Matrix.mulVec, Matrix.dotProduct, invFirstCol]
  have hsum : ∑ j, M i j * (M.adjugate j ⟨0, hk⟩ / M.det)
      = (∑ j, M i j * M.adjugate j ⟨0, hk⟩) / M.det := by
    rw [Finset.sum_div]
    exact Finset.sum_congr rfl fun j _ => by ring
  rw [hsum, ← Matrix.mul_apply, Matrix.mul_adjugate]
  by_cases h : i.1 = 0
  · have hi : i = ⟨0, hk⟩ := Fin.ext h
    simp [hi, Matrix.smul_apply, Matrix.one_apply_eq, smul_eq_mul,
      div_self hdet, h]
  · have hi : i ≠ ⟨0, hk⟩ := fun hh => h (by rw [hh])
    simp [Matrix.smul_apply, Matrix.one_apply_ne hi, h]

theorem weights_sum_one {n : ℕ} (points : List (Vect n)) (hne : points ≠ [])
    (hdet : (simplexMat points).det ≠ 0) :
    ∑ i, invFirstCol (simplexMat points) i = 1 := by
  have hk : 0 < points.length := List.length_pos.2 hne
  have h := invFirstCol_mulVec (simplexMat points) hdet hk ⟨0, hk⟩
  rw [simplexMat_mulVec] at h
  simpa using h

theorem combo_sub_base {n : ℕ} (points : List (Vect n))
    (hk : 0 < points.length) (x : Fin points.length → ℚ)
    (hx : ∑ i, x i = 0) :
    combo points x = ∑ i, x i • (points.get i - points.get ⟨0, hk⟩) := by
  unfold combo
  rw [eq_comm]
  simp only [smul_sub, Finset.sum_sub_distrib, ← Finset.sum_smul, hx,
    zero_smul, sub_zero]

theorem dot_combo_zero_of_rows {n : ℕ} (points : List (Vect n))
    (hk : 0 < points.length) (u : Vect n)
    (hrows : ∀ i : Fin points.length, i.1 ≠ 0 →
      dot (points.get i - points.get ⟨0, hk⟩) u = 0)
    (x : Fin points.length → ℚ) (hx : ∑ i, x i = 0) :
    dot (combo points x) u = 0 := by
  rw [combo_sub_base points hk x hx, dot_comm, dot_sum_right]
  apply Finset.sum_eq_zero
  intro i _
  rw [dot_smul_right, dot_comm]
  by_cases h : i.1 = 0
  · have hi : i = ⟨0, hk⟩ := Fin.ext h
    simp [hi, sub_self, dot_comm, dot_zero_right]
  · rw [hrows i h]
    ring

theorem orth_combo {n : ℕ} (points : List (Vect n)) (hne : points ≠ [])
    (hdet : (simplexMat points).det ≠ 0)
    (x : Fin points.length → ℚ) (hx : ∑ i, x i = 0) :
    dot (combo points x)
      (combo points (invFirstCol (simplexMat points))) = 0 := by
  have hk : 0 < points.length := List.length_pos.2 hne
  apply dot_combo_zero_of_rows points hk _ _ x hx
  intro i hi
  have h := invFirstCol_mulVec (simplexMat points) hdet hk i
  rw [simplexMat_mulVec] at h
  simpa [hi] using h

theorem feasible_min_affine {n : ℕ} (points : List (Vect n)) (hne : points ≠ [])
    (hdet : (simplexMat points).det ≠ 0)
    (μ : Fin points.length → ℚ) (hμ : ∑ i, μ i = 1) :
    sqnorm (combo points μ) =
      sqnorm (combo points (invFirstCol (simplexMat points))) +
      sqnorm (combo points (μ - invFirstCol (simplexMat points))) := by
  have hsum0 : ∑ i, (μ - invFirstCol (simplexMat points)) i = 0 := by
    simp [Pi.sub_apply, Finset.sum_sub_distrib, hμ,
      weights_sum_one points hne hdet]
  have horth := orth_combo points hne hdet _ hsum0
  have hdec : combo points μ =
      combo points (invFirstCol (simplexMat points)) +
      combo points (μ - invFirstCol (simplexMat points)) := by
    rw [← combo_add]
    funext i
    simp
  rw [hdec, sqnorm_add_of_orth]
  rw [dot_comm]
  exact horth

theorem singular_dependence {n : ℕ} (points : List (Vect n)) (hne : points ≠ [])
    (hdet : (simplexMat points).det = 0) :
    ∃ c : Fin points.length → ℚ,
      c ≠ 0 ∧ ∑ i, c i = 0 ∧ combo points c = 0 := by
  obtain ⟨v, hv0, hvM⟩ := (Matrix.exists_mulVec_eq_zero_iff).2 hdet
  have hk : 0 < points.length := List.length_pos.2 hne
  have hsum : ∑ i, v i = 0 := by
    have h := congrFun hvM ⟨0, hk⟩
    rw [simplexMat_mulVec] at h
    simpa using h
  have hrows : ∀ i : Fin points.length, i.1 ≠ 0 →
      dot (points.get i - points.get ⟨0, hk⟩) (combo points v) = 0 := by
    intro i hi
    have h := congrFun hvM i
    rw [simplexMat_mulVec] at h
    simpa [hi] using h
  have hcv : combo points v = 0 := by
    apply (sqnorm_eq_zero _).1
    exact dot_combo_zero_of_rows points hk _ hrows v hsum
  exact ⟨v, hv0, hsum, hcv⟩

theorem affineIndependent_of_det_ne_zero {n : ℕ} (points : List (Vect n))
    (hdet : (simplexMat points).det ≠ 0) :
    AffineIndependent ℚ points.get := by
  rw [affineIndependent_iff]
  intro s w hs hcombz
  have hnex := (Matrix.exists_mulVec_eq_zero_iff (M := simplexMat points)).not
  intro e he
  by_contra hwe
  apply hdet
  apply (Matrix.exists_mulVec_eq_zero_iff).1
  refine ⟨fun i => if i ∈ s then w i else 0, ?_, ?_⟩
  · intro hW0
    apply hwe
    have := congrFun hW0 e
    simpa [he] using this
  · funext i
    rw [simplexMat_mulVec]
    have hWsum : ∑ j, (if j ∈ s then w j else 0) = 0 := by
      rw [Finset.sum_ite_mem, Finset.univ_inter]
      exact hs
    have hWcombo : combo points (fun j => if j ∈ s then w j else 0) = 0 := by
      unfold combo
      rw [← hcombz]
      simp only [ite_smul, zero_smul]
      rw [Finset.sum_ite_mem, Finset.univ_inter]
    by_cases h : i.1 = 0
    · simp [h, hWsum]
    · simp [h, hWcombo, dot_zero_right]

/-! ### Characterization of `project_on_subsimplex` -/

theorem vdiv_one {n : ℕ} (v : Vect n) : vdiv v 1 = v := by
  funext i
  simp [vdiv]

theorem project_on_subsimplex_eq_none {n : ℕ} (points : List (Vect n)) :
    project_on_subsimplex points = none ↔
      (simplexMat points).det = 0 ∨
      ∃ i, invFirstCol (simplexMat points) i ≤ 0 := by
  unfold project_on_subsimplex
  by_cases h1 : (simplexMat points).det = 0
  · simp [h1]
  · by_cases h2 : ∀ i, 0 < invFirstCol (simplexMat points) i
    · have h3 : ¬∃ i, invFirstCol (simplexMat points) i ≤ 0 := by
        push_neg
        intro i
        exact h2 i
      simp [h1, h2, h3]
    · have h3 : ∃ i, invFirstCol (simplexMat points) i ≤ 0 := by
        push_neg at h2
        exact h2
      simp [h1, h2, h3]

theorem project_on_subsimplex_eq_some {n : ℕ} (points : List (Vect n))
    (r : Vect n) (hne : points ≠ []) :
    project_on_subsimplex points = some r ↔
      (simplexMat points).det ≠ 0 ∧
      (∀ i, 0 < invFirstCol (simplexMat points) i) ∧
      r = combo points (invFirstCol (simplexMat points)) := by
  unfold project_on_subsimplex
  by_cases h1 : (simplexMat points).det = 0
  · simp only [h1, if_true]
    constructor
    · intro h
      cases h
    · rintro ⟨hd, -, -⟩
      exact absurd rfl hd
  · by_cases h2 : ∀ i, 0 < invFirstCol (simplexMat points) i
    · rw [if_neg h1, if_pos h2]
      rw [weights_sum_one points hne h1, vdiv_one]
      rw [Option.some_inj]
      constructor
      · intro h
        exact ⟨h1, h2, h.symm⟩
      · rintro ⟨-, -, h⟩
        exact h.symm
    · rw [if_neg h1, if_neg h2]
      constructor
      · intro h
        cases h
      · rintro ⟨-, hall, -⟩
        exact absurd hall h2

/-! ### Unfolding `project_on_subsimplices` -/

theorem foldl_attach {α β : Type} (l : List α) (f : β → α → β) (init : β) :
    l.attach.foldl (fun b i => f b i.1) init = l.foldl f init := by
  have h := List.foldl_map (fun i : {x // x ∈ l} => i.1) f l.attach init
  have h2 : l.attach.map (fun i : {x // x ∈ l} => i.1) = l := by
    simp
  rw [h2] at h
  exact h.symm

theorem project_on_subsimplices_single {n : ℕ} (a : Vect n) :
    project_on_subsimplices [a] = (a, [a]) := by
  rw [project_on_subsimplices]
  simp

theorem project_on_subsimplices_eq {n : ℕ} (points : List (Vect n))
    (h : points.length ≠ 1) :
    project_on_subsimplices points =
      ((((List.range points.length).foldl
          (fun best i =>
            step best (project_on_subsimplices (points.eraseIdx i)))
          (project_on_subsimplex points, points)).1.getD 0),
        ((List.range points.length).foldl
          (fun best i =>
            step best (project_on_subsimplices (points.eraseIdx i)))
          (project_on_subsimplex points, points)).2) := by
  rw [project_on_subsimplices]
  rw [dif_neg h]
  rw [foldl_attach (List.range points.length)
    (fun best i => step best (project_on_subsimplices (points.eraseIdx i)))]

/-! ### Folding `step` over a candidate list -/

theorem step_cases {n : ℕ} (b : Option (Vect n) × List (Vect n))
    (c : Vect n × List (Vect n)) :
    (∃ p, b.1 = some p ∧ sqnorm p ≤ sqnorm c.1 ∧ step b c = (some p, b.2)) ∨
    (step b c = (some c.1, c.2) ∧
      ∀ p, b.1 = some p → sqnorm c.1 ≤ sqnorm p) := by
  obtain ⟨b1, b2⟩ := b
  rcases b1 with _ | p
  · right
    constructor
    · rfl
    · intro p hp
      exact Option.noConfusion hp
  · by_cases hcmp : sqnorm p > sqnorm c.1
    · right
      constructor
      · show step (some p, b2) c = (some c.1, c.2)
        unfold step
        simp [hcmp]
      · intro p2 hp2
        have hpp : p = p2 := Option.some.inj hp2
        subst hpp
        exact le_of_lt hcmp
    · left
      refine ⟨p, rfl, not_lt.1 hcmp, ?_⟩
      show step (some p, b2) c = (some p, b2)
      unfold step
      simp [hcmp]

theorem foldl_step_facts {n : ℕ} (g : ℕ → Vect n × List (Vect n)) :
    ∀ (l : List ℕ) (init : Option (Vect n) × List (Vect n)),
      ((init.1 = none ∧ l = [] ∧
          l.foldl (fun b i => step b (g i)) init = init) ∨
       (∃ p, init.1 = some p ∧
          l.foldl (fun b i => step b (g i)) init = (some p, init.2)) ∨
       (∃ i ∈ l,
          l.foldl (fun b i => step b (g i)) init = (some (g i).1, (g i).2))) ∧
      (∀ q, (l.foldl (fun b i => step b (g i)) init).1 = some q →
        (∀ p, init.1 = some p → sqnorm q ≤ sqnorm p) ∧
        (∀ i ∈ l, sqnorm q ≤ sqnorm (g i).1)) := by
  intro l
  induction l with
  | nil =>
    intro init
    constructor
    · rcases hb : init.1 with _ | p
      · exact Or.inl ⟨rfl, rfl, rfl⟩
      · refine Or.inr (Or.inl ⟨p, rfl, ?_⟩)
        simp only [List.foldl_nil]
        exact Prod.ext hb rfl
    · intro q hq
      simp only [List.foldl_nil] at hq
      refine ⟨?_, by simp⟩
      intro p hp
      rw [hq] at hp
      injection hp with hh
      rw [hh]
  | cons i l ih =>
    intro init
    simp only [List.foldl_cons]
    rcases step_cases init (g i) with ⟨p, hbp, hple, hstep⟩ | ⟨hstep, hback⟩
    · rw [hstep]
      obtain ⟨hdisj, hmin⟩ := ih (some p, init.2)
      constructor
      · rcases hdisj with ⟨hnone, -, -⟩ | ⟨p2, hp2, hfold⟩ | ⟨j, hj, hfold⟩
        · cases hnone
        · injection hp2 with hh
          subst hh
          exact Or.inr (Or.inl ⟨p, hbp, hfold⟩)
        · exact Or.inr (Or.inr ⟨j, List.mem_cons_of_mem i hj, hfold⟩)
      · intro q hq
        obtain ⟨hinit, hrest⟩ := hmin q hq
        have hqp : sqnorm q ≤ sqnorm p := hinit p rfl
        constructor
        · intro p0 hp0
          rw [hbp] at hp0
          injection hp0 with hh
          subst hh
          exact hqp
        · intro j hj
          rcases List.mem_cons.1 hj with hji | hjl
          · subst hji
            exact le_trans hqp hple
          · exact hrest j hjl
    · rw [hstep]
      obtain ⟨hdisj, hmin⟩ := ih (some (g i).1, (g i).2)
      constructor
      · rcases hdisj with ⟨hnone, -, -⟩ | ⟨p2, hp2, hfold⟩ | ⟨j, hj, hfold⟩
        · cases hnone
        · injection hp2 with hh
          subst hh
          exact Or.inr (Or.inr ⟨i, List.mem_cons_self i l, hfold⟩)
        · exact Or.inr (Or.inr ⟨j, List.mem_cons_of_mem i hj, hfold⟩)
      · intro q hq
        obtain ⟨hinit, hrest⟩ := hmin q hq
        have hqgi : sqnorm q ≤ sqnorm (g i).1 := hinit (g i).1 rfl
        constructor
        · intro p0 hp0
          exact le_trans hqgi (hback p0 hp0)
        · intro j hj
          rcases List.mem_cons.1 hj with hji | hjl
          · subst hji
            exact hqgi
          · exact hrest j hjl

/-! ### Minimality of the recursive search over the convex hull -/

theorem combo_neg {n : ℕ} (points : List (Vect n))
    (x : Fin points.length → ℚ) : combo points (-x) = -combo points x := by
  unfold combo
  simp [neg_smul]

theorem eraseIdx_ne_nil {n : ℕ} (points : List (Vect n)) (j : ℕ)
    (hj : j < points.length) (hlen2 : 2 ≤ points.length) :
    points.eraseIdx j ≠ [] := by
  have hl : (points.eraseIdx j).length = points.length - 1 := by
    rw [List.length_eraseIdx]
    simp [hj]
  intro hemp
  rw [hemp] at hl
  simp at hl
  omega

/-- If the candidate produced at this level by `project_on_subsimplex` (when
any) and all recursive subsimplex results bound `x` from above in norm, and
each recursive result is minimal over its own hull, then `x` is minimal over
the hull of the whole list. -/
theorem min_over_hull {n : ℕ} (points : List (Vect n)) (hne : points ≠ [])
    (hlen2 : 2 ≤ points.length) (x : Vect n)
    (hinitmin : ∀ p, project_on_subsimplex points = some p →
      sqnorm x ≤ sqnorm p)
    (hrecmin : ∀ i, i < points.length →
      sqnorm x ≤ sqnorm (project_on_subsimplices (points.eraseIdx i)).1)
    (hrec : ∀ i, i < points.length →
      ∀ q ∈ convexHull ℚ {y | y ∈ points.eraseIdx i},
        sqnorm (project_on_subsimplices (points.eraseIdx i)).1 ≤ sqnorm q) :
    ∀ q ∈ convexHull ℚ {y | y ∈ points}, sqnorm x ≤ sqnorm q := by
  intro q hq
  obtain ⟨lam, hlam0, hlam1, hqeq⟩ := exists_weights_of_mem_convexHull hq
  subst hqeq
  have hvia : ∀ μ : Fin points.length → ℚ, (∀ i, 0 ≤ μ i) → ∑ i, μ i = 1 →
      (∃ j, μ j = 0) →
      sqnorm (combo points μ) ≤ sqnorm (combo points lam) →
      sqnorm x ≤ sqnorm (combo points lam) := by
    rintro μ hμ0 hμ1 ⟨j, hj⟩ hle
    have hjlt : j.1 < points.length := j.2
    have hene := eraseIdx_ne_nil points j.1 hjlt hlen2
    have hmem := combo_mem_convexHull_eraseIdx points μ j hμ0 hμ1 hj hene
    calc sqnorm x
        ≤ sqnorm (project_on_subsimplices (points.eraseIdx j.1)).1 :=
          hrecmin j.1 hjlt
      _ ≤ sqnorm (combo points μ) := hrec j.1 hjlt _ hmem
      _ ≤ sqnorm (combo points lam) := hle
  by_cases hdet : (simplexMat points).det = 0
  · -- singular system: shift the weights along an affine dependence
    obtain ⟨c, hc0, hcsum, hccomb⟩ := singular_dependence points hne hdet
    have hcex : ∃ c2 : Fin points.length → ℚ,
        (∑ i, c2 i = 0) ∧ combo points c2 = 0 ∧ ∃ j, 0 < c2 j := by
      have hj1 : ∃ j, c j ≠ 0 := by
        by_contra hall
        push_neg at hall
        exact hc0 (funext fun j => hall j)
      obtain ⟨j1, hj1⟩ := hj1
      rcases lt_or_gt_of_ne hj1 with hneg | hposj
      · refine ⟨-c, by simp [hcsum], by rw [combo_neg, hccomb, neg_zero], j1, ?_⟩
        simpa using hneg
      · exact ⟨c, hcsum, hccomb, j1, hposj⟩
    obtain ⟨c2, hc2sum, hc2comb, jp, hjp⟩ := hcex
    obtain ⟨j0, hj0S, hj0min⟩ := Finset.exists_min_image
      (Finset.univ.filter fun j => 0 < c2 j) (fun j => lam j / c2 j)
      ⟨jp, Finset.mem_filter.2 ⟨Finset.mem_univ _, hjp⟩⟩
    have hj0pos : 0 < c2 j0 := (Finset.mem_filter.1 hj0S).2
    have ht0 : 0 ≤ lam j0 / c2 j0 := div_nonneg (hlam0 j0) hj0pos.le
    have hμ0 : ∀ i, 0 ≤ lam i - lam j0 / c2 j0 * c2 i := by
      intro i
      by_cases hiS : 0 < c2 i
      · have := hj0min i (Finset.mem_filter.2 ⟨Finset.mem_univ _, hiS⟩)
        have h2 : lam j0 / c2 j0 * c2 i ≤ lam i / c2 i * c2 i :=
          mul_le_mul_of_nonneg_right this hiS.le
        rw [div_mul_cancel₀ _ hiS.ne'] at h2
        linarith
      · push_neg at hiS
        have : 0 ≤ lam j0 / c2 j0 * (-c2 i) := mul_nonneg ht0 (by linarith)
        have h3 := hlam0 i
        nlinarith
    have hμ1 : ∑ i, (lam i - lam j0 / c2 j0 * c2 i) = 1 := by
      rw [Finset.sum_sub_distrib, ← Finset.mul_sum, hc2sum, hlam1]
      ring
    have hμj0 : lam j0 - lam j0 / c2 j0 * c2 j0 = 0 := by
      rw [div_mul_cancel₀ _ hj0pos.ne']
      ring
    have hcombeq : combo points (fun i => lam i - lam j0 / c2 j0 * c2 i)
        = combo points lam := by
      have : (fun i => lam i - lam j0 / c2 j0 * c2 i)
          = lam - (lam j0 / c2 j0) • c2 := by
        funext i
        simp [mul_comm]
      rw [this, combo_sub, combo_smul, hc2comb, smul_zero, sub_zero]
    exact hvia _ hμ0 hμ1 ⟨j0, hμj0⟩ (le_of_eq (by rw [hcombeq]))
  · by_cases hpos : ∀ i, 0 < invFirstCol (simplexMat points) i
    · -- feasible full solve: it minimizes over the affine span
      have hsome : project_on_subsimplex points
          = some (combo points (invFirstCol (simplexMat points))) :=
        (project_on_subsimplex_eq_some points _ hne).2 ⟨hdet, hpos, rfl⟩
      have h1 := hinitmin _ hsome
      have h2 := feasible_min_affine points hne hdet lam hlam1
      calc sqnorm x
          ≤ sqnorm (combo points (invFirstCol (simplexMat points))) := h1
        _ ≤ sqnorm (combo points lam) := by
            rw [h2]
            exact le_add_of_nonneg_right (sqnorm_nonneg _)
    · -- nonsingular but infeasible: walk toward the affine minimizer until a
      -- weight vanishes
      push_neg at hpos
      obtain ⟨i0, hi0⟩ := hpos
      by_cases hzero : ∃ j, lam j = 0
      · obtain ⟨j, hj⟩ := hzero
        exact hvia lam hlam0 hlam1 ⟨j, hj⟩ le_rfl
      · push_neg at hzero
        have hlampos : ∀ j, 0 < lam j :=
          fun j => lt_of_le_of_ne (hlam0 j) (Ne.symm (hzero j))
        have hwsum := weights_sum_one points hne hdet
        obtain ⟨j0, hj0S, hj0min⟩ := Finset.exists_min_image
          (Finset.univ.filter fun j =>
            invFirstCol (simplexMat points) j < lam j)
          (fun j => lam j / (lam j - invFirstCol (simplexMat points) j))
          ⟨i0, Finset.mem_filter.2 ⟨Finset.mem_univ _,
            lt_of_le_of_lt hi0 (hlampos i0)⟩⟩
        have hj0lt : invFirstCol (simplexMat points) j0 < lam j0 :=
          (Finset.mem_filter.1 hj0S).2
        have hden0 : 0 < lam j0 - invFirstCol (simplexMat points) j0 := by
          linarith
        have ht0 : 0 ≤ lam j0 / (lam j0 - invFirstCol (simplexMat points) j0) :=
          div_nonneg (hlam0 j0) hden0.le
        have ht1 : lam j0 / (lam j0 - invFirstCol (simplexMat points) j0) ≤ 1 := by
          have hmin := hj0min i0 (Finset.mem_filter.2 ⟨Finset.mem_univ _,
            lt_of_le_of_lt hi0 (hlampos i0)⟩)
          have hdeni0 : 0 < lam i0 - invFirstCol (simplexMat points) i0 := by
            have := hlampos i0
            linarith
          have : lam i0 / (lam i0 - invFirstCol (simplexMat points) i0) ≤ 1 := by
            rw [div_le_one hdeni0]
            linarith
          linarith
        -- the shifted weights
        have hμ0 : ∀ i, 0 ≤
            (1 - lam j0 / (lam j0 - invFirstCol (simplexMat points) j0)) * lam i
            + lam j0 / (lam j0 - invFirstCol (simplexMat points) j0)
              * invFirstCol (simplexMat points) i := by
          intro i
          by_cases hiS : invFirstCol (simplexMat points) i < lam i
          · have hdeni : 0 < lam i - invFirstCol (simplexMat points) i := by
              linarith
            have hmin := hj0min i (Finset.mem_filter.2 ⟨Finset.mem_univ _, hiS⟩)
            have h2 : lam j0 / (lam j0 - invFirstCol (simplexMat points) j0)
                * (lam i - invFirstCol (simplexMat points) i)
                ≤ lam i / (lam i - invFirstCol (simplexMat points) i)
                * (lam i - invFirstCol (simplexMat points) i) :=
              mul_le_mul_of_nonneg_right hmin hdeni.le
            rw [div_mul_cancel₀ _ hdeni.ne'] at h2
            nlinarith
          · push_neg at hiS
            have h3 := hlampos i
            nlinarith
        have hμ1 : ∑ i,
            ((1 - lam j0 / (lam j0 - invFirstCol (simplexMat points) j0)) * lam i
            + lam j0 / (lam j0 - invFirstCol (simplexMat points) j0)
              * invFirstCol (simplexMat points) i) = 1 := by
          rw [Finset.sum_add_distrib, ← Finset.mul_sum, ← Finset.mul_sum,
            hlam1, hwsum]
          ring
        have hμj0 :
            (1 - lam j0 / (lam j0 - invFirstCol (simplexMat points) j0)) * lam j0
            + lam j0 / (lam j0 - invFirstCol (simplexMat points) j0)
              * invFirstCol (simplexMat points) j0 = 0 := by
          field_simp
          ring
        have hcombμ :
            (fun i => (1 - lam j0 / (lam j0 - invFirstCol (simplexMat points) j0)) * lam i
              + lam j0 / (lam j0 - invFirstCol (simplexMat points) j0)
                * invFirstCol (simplexMat points) i)
            - invFirstCol (simplexMat points)
            = (1 - lam j0 / (lam j0 - invFirstCol (simplexMat points) j0))
              • (lam - invFirstCol (simplexMat points)) := by
          funext i
          simp only [Pi.sub_apply, Pi.smul_apply, smul_eq_mul]
          ring
        have hle : sqnorm (combo points
            (fun i => (1 - lam j0 / (lam j0 - invFirstCol (simplexMat points) j0)) * lam i
              + lam j0 / (lam j0 - invFirstCol (simplexMat points) j0)
                * invFirstCol (simplexMat points) i))
            ≤ sqnorm (combo points lam) := by
          rw [feasible_min_affine points hne hdet _ hμ1,
            feasible_min_affine points hne hdet lam hlam1]
          rw [hcombμ, combo_smul, sqnorm_smul]
          have hsq : (1 - lam j0 / (lam j0 - invFirstCol (simplexMat points) j0)) ^ 2 ≤ 1 := by
            nlinarith
          nlinarith [sqnorm_nonneg (combo points (lam - invFirstCol (simplexMat points)))]
        exact hvia _ hμ0 hμ1 ⟨j0, hμj0⟩ hle

theorem sum_univ_length_one {α : Type} {M : Type} [AddCommMonoid M]
    (l : List α) (hl : l.length = 1) (f : Fin l.length → M)
    (z : Fin l.length) : ∑ i, f i = f z := by
  haveI : Unique (Fin l.length) := hl.symm ▸ inferInstanceAs (Unique (Fin 1))
  rw [Finset.univ_unique, Finset.sum_singleton]
  exact congrArg f (Subsingleton.elim _ _)

/-- The inductive invariant of `project_on_subsimplices` on a non-empty list:
the retained list is a non-empty sublist of the input, the returned projection
is a strictly positive weighted combination (weights summing to one) of the
retained points, the retained points are affinely independent, and the
projection has minimal squared norm over the convex hull of the input. -/
theorem subsimplices_facts {n : ℕ} :
    ∀ (N : ℕ) (points : List (Vect n)), points.length ≤ N → points ≠ [] →
      (project_on_subsimplices points).2 ≠ [] ∧
      List.Sublist (project_on_subsimplices points).2 points ∧
      (∃ w : Fin (project_on_subsimplices points).2.length → ℚ,
        (∀ i, 0 < w i) ∧ ∑ i, w i = 1 ∧
        (project_on_subsimplices points).1 =
          combo (project_on_subsimplices points).2 w) ∧
      AffineIndependent ℚ (project_on_subsimplices points).2.get ∧
      ∀ q ∈ convexHull ℚ {y | y ∈ points},
        sqnorm (project_on_subsimplices points).1 ≤ sqnorm q := by
  intro N
  induction N with
  | zero =>
    intro points hlen hne
    exact absurd (List.length_eq_zero.1 (Nat.le_zero.1 hlen)) hne
  | succ N ih =>
    intro points hlen hne
    by_cases h1 : points.length = 1
    · obtain ⟨a, rfl⟩ := List.length_eq_one.1 h1
      rw [project_on_subsimplices_single]
      have hl1 : ([a] : List (Vect n)).length = 1 := rfl
      refine ⟨by simp, List.Sublist.refl _, ?_, ?_, ?_⟩
      · refine ⟨fun _ => 1, fun i => one_pos, ?_, ?_⟩
        · exact sum_univ_length_one [a] hl1 _ ⟨0, by simp⟩
        · unfold combo
          rw [sum_univ_length_one [a] hl1 _ ⟨0, by simp⟩]
          simp
      · haveI : Subsingleton (Fin ([a] : List (Vect n)).length) := by
          constructor
          intro i j
          apply Fin.ext
          have h2 : i.1 < 1 := by simp
          have h3 : j.1 < 1 := by simp
          omega
        exact affineIndependent_of_subsingleton ℚ _
      · intro q hq
        have hset : {y : Vect n | y ∈ ([a] : List (Vect n))} = {a} := by
          ext y
          simp
        rw [hset, convexHull_singleton] at hq
        rw [Set.mem_singleton_iff] at hq
        subst hq
        exact le_refl _
    · have hlenpos : 0 < points.length := List.length_pos.2 hne
      have hlen2 : 2 ≤ points.length := by omega
      have hunf := project_on_subsimplices_eq points h1
      obtain ⟨hdisj, hmin⟩ := foldl_step_facts
        (fun i => project_on_subsimplices (points.eraseIdx i))
        (List.range points.length)
        (project_on_subsimplex points, points)
      have hIH : ∀ i, i < points.length →
          (project_on_subsimplices (points.eraseIdx i)).2 ≠ [] ∧
          List.Sublist (project_on_subsimplices (points.eraseIdx i)).2
            (points.eraseIdx i) ∧
          (∃ w : Fin (project_on_subsimplices (points.eraseIdx i)).2.length → ℚ,
            (∀ j, 0 < w j) ∧ ∑ j, w j = 1 ∧
            (project_on_subsimplices (points.eraseIdx i)).1 =
              combo (project_on_subsimplices (points.eraseIdx i)).2 w) ∧
          AffineIndependent ℚ (project_on_subsimplices (points.eraseIdx i)).2.get ∧
          ∀ q ∈ convexHull ℚ {y | y ∈ points.eraseIdx i},
            sqnorm (project_on_subsimplices (points.eraseIdx i)).1 ≤ sqnorm q := by
        intro i hi
        apply ih
        · rw [List.length_eraseIdx]
          simp only [hi, if_true]
          omega
        · exact eraseIdx_ne_nil points i hi hlen2
      rcases hdisj with ⟨-, hrnil, -⟩ | ⟨p, hinit, hfold⟩ | ⟨i, hi, hfold⟩
      · rw [List.range_eq_nil] at hrnil
        omega
      · have hres : project_on_subsimplices points = (p, points) := by
          rw [hunf, hfold]
          rfl
        obtain ⟨hdet, hpos, hpw⟩ :=
          (project_on_subsimplex_eq_some points p hne).1 hinit
        obtain ⟨hminInit, hminRec⟩ := hmin p (by rw [hfold])
        refine ⟨?_, ?_, ?_, ?_, ?_⟩
        · rw [hres]
          exact hne
        · rw [hres]
        · rw [hres]
          exact ⟨invFirstCol (simplexMat points), hpos,
            weights_sum_one points hne hdet, hpw⟩
        · rw [hres]
          exact affineIndependent_of_det_ne_zero points hdet
        · rw [hres]
          apply min_over_hull points hne hlen2 p hminInit
          · intro j hj
            exact hminRec j (List.mem_range.2 hj)
          · intro j hj
            exact (hIH j hj).2.2.2.2
      · have hilt : i < points.length := List.mem_range.1 hi
        have hres : project_on_subsimplices points =
            project_on_subsimplices (points.eraseIdx i) := by
          rw [hunf, hfold]
          rfl
        obtain ⟨hne2, hsub2, hw2, haff2, -⟩ := hIH i hilt
        obtain ⟨hminInit, hminRec⟩ :=
          hmin (project_on_subsimplices (points.eraseIdx i)).1 (by rw [hfold])
        refine ⟨?_, ?_, ?_, ?_, ?_⟩
        · rw [hres]
          exact hne2
        · rw [hres]
          exact List.Sublist.trans hsub2 (List.eraseIdx_sublist points i)
        · rw [hres]
          exact hw2
        · rw [hres]
          exact haff2
        · rw [hres]
          apply min_over_hull points hne hlen2 _ hminInit
          · intro j hj
            exact hminRec j (List.mem_range.2 hj)
          · intro j hj
            exact (hIH j hj).2.2.2.2

/-! ### Two- and three-point instances, for concrete evaluations -/

theorem pair_sum {n : ℕ} {M : Type} [AddCommMonoid M] (a b : Vect n)
    (f : Fin ([a, b] : List (Vect n)).length → M) :
    ∑ i, f i = f ⟨0, by simp⟩ + f ⟨1, by simp⟩ :=
  Fin.sum_univ_two f

theorem pair_forall {n : ℕ} (a b : Vect n)
    (P : Fin ([a, b] : List (Vect n)).length → Prop) :
    (∀ i, P i) ↔ P ⟨0, by simp⟩ ∧ P ⟨1, by simp⟩ :=
  Fin.forall_fin_two

theorem simplexMat_pair_det {n : ℕ} (a b : Vect n) :
    (simplexMat [a, b]).det = sub_dot b a b - sub_dot b a a := by
  refine (Matrix.det_fin_two
    (simplexMat [a, b] : Matrix (Fin 2) (Fin 2) ℚ)).trans ?_
  show (1 : ℚ) * sub_dot b a b - 1 * sub_dot b a a = _
  ring

theorem invFirstCol_pair {n : ℕ} (a b : Vect n)
    (i : Fin ([a, b] : List (Vect n)).length) :
    invFirstCol (simplexMat [a, b]) i =
      (if i.1 = 0 then sub_dot b a b else -(sub_dot b a a)) /
        (sub_dot b a b - sub_dot b a a) := by
  unfold invFirstCol
  rw [simplexMat_pair_det]
  congr 1
  have h0 := congrFun (congrFun (Matrix.adjugate_fin_two
    (simplexMat [a, b] : Matrix (Fin 2) (Fin 2) ℚ)) i) ⟨0, i.pos⟩
  refine h0.trans ?_
  rcases i with ⟨iv, hivlt⟩
  have hiv : iv < 2 := by simpa using hivlt
  interval_cases iv
  · rfl
  · rfl

theorem combo_pair {n : ℕ} (a b : Vect n)
    (w : Fin ([a, b] : List (Vect n)).length → ℚ) :
    combo [a, b] w = w ⟨0, by simp⟩ • a + w ⟨1, by simp⟩ • b := by
  unfold combo
  exact pair_sum a b _

theorem simplexMat_triple_det {n : ℕ} (a b c : Vect n) :
    (simplexMat [a, b, c]).det =
      (sub_dot b a b * sub_dot c a c - sub_dot b a c * sub_dot c a b)
      - (sub_dot b a a * sub_dot c a c - sub_dot b a c * sub_dot c a a)
      + (sub_dot b a a * sub_dot c a b - sub_dot b a b * sub_dot c a a) := by
  refine (Matrix.det_fin_three
    (simplexMat [a, b, c] : Matrix (Fin 3) (Fin 3) ℚ)).trans ?_
  show (1 : ℚ) * sub_dot b a b * sub_dot c a c
      - 1 * sub_dot b a c * sub_dot c a b
      - 1 * sub_dot b a a * sub_dot c a c
      + 1 * sub_dot b a c * sub_dot c a a
      + 1 * sub_dot b a a * sub_dot c a b
      - 1 * sub_dot b a b * sub_dot c a a = _
  ring

/-! ### Concrete evaluations used by the counterexamples -/

theorem eval_sub_seg0 :
    project_on_subsimplex ([![(-1:ℚ),0], ![1,0]] : List (Vect 2))
      = some ![0,0] := by
  apply (project_on_subsimplex_eq_some _ _ (by simp)).2
  refine ⟨?_, ?_, ?_⟩
  · rw [simplexMat_pair_det]
    norm_num [sub_dot, dot, Fin.sum_univ_two, Pi.sub_apply,
      Matrix.cons_val_zero, Matrix.cons_val_one, Matrix.head_cons]
  · rw [pair_forall]
    constructor <;>
      (rw [invFirstCol_pair]
       norm_num [sub_dot, dot, Fin.sum_univ_two, Pi.sub_apply,
         Matrix.cons_val_zero, Matrix.cons_val_one, Matrix.head_cons])
  · rw [combo_pair, invFirstCol_pair, invFirstCol_pair]
    norm_num [sub_dot, dot, Fin.sum_univ_two, Pi.sub_apply,
      Matrix.cons_val_zero, Matrix.cons_val_one, Matrix.head_cons]

theorem eval_sub_seg10 :
    project_on_subsimplex ([![(9:ℚ),0], ![11,0]] : List (Vect 2)) = none := by
  apply (project_on_subsimplex_eq_none _).2
  right
  refine ⟨⟨1, by simp⟩, ?_⟩
  rw [invFirstCol_pair]
  norm_num [sub_dot, dot, Fin.sum_univ_two, Pi.sub_apply,
    Matrix.cons_val_zero, Matrix.cons_val_one, Matrix.head_cons]

theorem eval_seg0 :
    project_on_subsimplices ([![(-1:ℚ),0], ![1,0]] : List (Vect 2))
      = (![0,0], [![(-1:ℚ),0], ![1,0]]) := by
  rw [project_on_subsimplices_eq _ (by simp)]
  have hr : List.range ([![(-1:ℚ),0], ![1,0]] : List (Vect 2)).length
      = [0, 1] := rfl
  rw [hr]
  simp only [List.foldl_cons, List.foldl_nil]
  rw [show ([![(-1:ℚ),0], ![1,0]] : List (Vect 2)).eraseIdx 0
      = [![1,0]] from rfl]
  rw [show ([![(-1:ℚ),0], ![1,0]] : List (Vect 2)).eraseIdx 1
      = [![(-1:ℚ),0]] from rfl]
  rw [project_on_subsimplices_single, project_on_subsimplices_single]
  rw [eval_sub_seg0]
  unfold step
  norm_num [sqnorm, dot, Fin.sum_univ_two,
    Matrix.cons_val_zero, Matrix.cons_val_one, Matrix.head_cons]

theorem eval_seg10 :
    project_on_subsimplices ([![(9:ℚ),0], ![11,0]] : List (Vect 2))
      = (![9,0], [![(9:ℚ),0]]) := by
  rw [project_on_subsimplices_eq _ (by simp)]
  have hr : List.range ([![(9:ℚ),0], ![11,0]] : List (Vect 2)).length
      = [0, 1] := rfl
  rw [hr]
  simp only [List.foldl_cons, List.foldl_nil]
  rw [show ([![(9:ℚ),0], ![11,0]] : List (Vect 2)).eraseIdx 0
      = [![11,0]] from rfl]
  rw [show ([![(9:ℚ),0], ![11,0]] : List (Vect 2)).eraseIdx 1
      = [![(9:ℚ),0]] from rfl]
  rw [project_on_subsimplices_single, project_on_subsimplices_single]
  rw [eval_sub_seg10]
  unfold step
  norm_num [sqnorm, dot, Fin.sum_univ_two,
    Matrix.cons_val_zero, Matrix.cons_val_one, Matrix.head_cons]

theorem eval_sub_bc :
    project_on_subsimplex ([![(3:ℚ),1], ![1,1]] : List (Vect 2)) = none := by
  apply (project_on_subsimplex_eq_none _).2
  right
  refine ⟨⟨0, by simp⟩, ?_⟩
  rw [invFirstCol_pair]
  norm_num [sub_dot, dot, Fin.sum_univ_two, Pi.sub_apply,
    Matrix.cons_val_zero, Matrix.cons_val_one, Matrix.head_cons]

theorem eval_sub_ac :
    project_on_subsimplex ([![(-1:ℚ),1], ![1,1]] : List (Vect 2))
      = some ![0,1] := by
  apply (project_on_subsimplex_eq_some _ _ (by simp)).2
  refine ⟨?_, ?_, ?_⟩
  · rw [simplexMat_pair_det]
    norm_num [sub_dot, dot, Fin.sum_univ_two, Pi.sub_apply,
      Matrix.cons_val_zero, Matrix.cons_val_one, Matrix.head_cons]
  · rw [pair_forall]
    constructor <;>
      (rw [invFirstCol_pair]
       norm_num [sub_dot, dot, Fin.sum_univ_two, Pi.sub_apply,
         Matrix.cons_val_zero, Matrix.cons_val_one, Matrix.head_cons])
  · rw [combo_pair, invFirstCol_pair, invFirstCol_pair]
    norm_num [sub_dot, dot, Fin.sum_univ_two, Pi.sub_apply,
      Matrix.cons_val_zero, Matrix.cons_val_one, Matrix.head_cons]

theorem eval_sub_ab :
    project_on_subsimplex ([![(-1:ℚ),1], ![3,1]] : List (Vect 2))
      = some ![0,1] := by
  apply (project_on_subsimplex_eq_some _ _ (by simp)).2
  refine ⟨?_, ?_, ?_⟩
  · rw [simplexMat_pair_det]
    norm_num [sub_dot, dot, Fin.sum_univ_two, Pi.sub_apply,
      Matrix.cons_val_zero, Matrix.cons_val_one, Matrix.head_cons]
  · rw [pair_forall]
    constructor <;>
      (rw [invFirstCol_pair]
       norm_num [sub_dot, dot, Fin.sum_univ_two, Pi.sub_apply,
         Matrix.cons_val_zero, Matrix.cons_val_one, Matrix.head_cons])
  · rw [combo_pair, invFirstCol_pair, invFirstCol_pair]
    norm_num [sub_dot, dot, Fin.sum_univ_two, Pi.sub_apply,
      Matrix.cons_val_zero, Matrix.cons_val_one, Matrix.head_cons]

theorem eval_sub_abc :
    project_on_subsimplex
      ([![(-1:ℚ),1], ![3,1], ![1,1]] : List (Vect 2)) = none := by
  apply (project_on_subsimplex_eq_none _).2
  left
  rw [simplexMat_triple_det]
  norm_num [sub_dot, dot, Fin.sum_univ_two, Pi.sub_apply,
    Matrix.cons_val_zero, Matrix.cons_val_one, Matrix.head_cons]

theorem eval_bc :
    project_on_subsimplices ([![(3:ℚ),1], ![1,1]] : List (Vect 2))
      = (![1,1], [![(1:ℚ),1]]) := by
  rw [project_on_subsimplices_eq _ (by simp)]
  have hr : List.range ([![(3:ℚ),1], ![1,1]] : List (Vect 2)).length
      = [0, 1] := rfl
  rw [hr]
  simp only [List.foldl_cons, List.foldl_nil]
  rw [show ([![(3:ℚ),1], ![1,1]] : List (Vect 2)).eraseIdx 0
      = [![1,1]] from rfl]
  rw [show ([![(3:ℚ),1], ![1,1]] : List (Vect 2)).eraseIdx 1
      = [![(3:ℚ),1]] from rfl]
  rw [project_on_subsimplices_single, project_on_subsimplices_single]
  rw [eval_sub_bc]
  unfold step
  norm_num [sqnorm, dot, Fin.sum_univ_two,
    Matrix.cons_val_zero, Matrix.cons_val_one, Matrix.head_cons]

theorem eval_ac :
    project_on_subsimplices ([![(-1:ℚ),1], ![1,1]] : List (Vect 2))
      = (![0,1], [![(-1:ℚ),1], ![1,1]]) := by
  rw [project_on_subsimplices_eq _ (by simp)]
  have hr : List.range ([![(-1:ℚ),1], ![1,1]] : List (Vect 2)).length
      = [0, 1] := rfl
  rw [hr]
  simp only [List.foldl_cons, List.foldl_nil]
  rw [show ([![(-1:ℚ),1], ![1,1]] : List (Vect 2)).eraseIdx 0
      = [![1,1]] from rfl]
  rw [show ([![(-1:ℚ),1], ![1,1]] : List (Vect 2)).eraseIdx 1
      = [![(-1:ℚ),1]] from rfl]
  rw [project_on_subsimplices_single, project_on_subsimplices_single]
  rw [eval_sub_ac]
  unfold step
  norm_num [sqnorm, dot, Fin.sum_univ_two,
    Matrix.cons_val_zero, Matrix.cons_val_one, Matrix.head_cons]

theorem eval_ab :
    project_on_subsimplices ([![(-1:ℚ),1], ![3,1]] : List (Vect 2))
      = (![0,1], [![(-1:ℚ),1], ![3,1]]) := by
  rw [project_on_subsimplices_eq _ (by simp)]
  have hr : List.range ([![(-1:ℚ),1], ![3,1]] : List (Vect 2)).length
      = [0, 1] := rfl
  rw [hr]
  simp only [List.foldl_cons, List.foldl_nil]
  rw [show ([![(-1:ℚ),1], ![3,1]] : List (Vect 2)).eraseIdx 0
      = [![3,1]] from rfl]
  rw [show ([![(-1:ℚ),1], ![3,1]] : List (Vect 2)).eraseIdx 1
      = [![(-1:ℚ),1]] from rfl]
  rw [project_on_subsimplices_single, project_on_subsimplices_single]
  rw [eval_sub_ab]
  unfold step
  norm_num [sqnorm, dot, Fin.sum_univ_two,
    Matrix.cons_val_zero, Matrix.cons_val_one, Matrix.head_cons]

theorem eval_abc :
    project_on_subsimplices
        ([![(-1:ℚ),1], ![3,1], ![1,1]] : List (Vect 2))
      = (![0,1], [![(-1:ℚ),1], ![1,1]]) := by
  rw [project_on_subsimplices_eq _ (by simp)]
  have hr : List.range
      ([![(-1:ℚ),1], ![3,1], ![1,1]] : List (Vect 2)).length
      = [0, 1, 2] := rfl
  rw [hr]
  simp only [List.foldl_cons, List.foldl_nil]
  rw [show ([![(-1:ℚ),1], ![3,1], ![1,1]] : List (Vect 2)).eraseIdx 0
      = [![3,1], ![1,1]] from rfl]
  rw [show ([![(-1:ℚ),1], ![3,1], ![1,1]] : List (Vect 2)).eraseIdx 1
      = [![(-1:ℚ),1], ![1,1]] from rfl]
  rw [show ([![(-1:ℚ),1], ![3,1], ![1,1]] : List (Vect 2)).eraseIdx 2
      = [![(-1:ℚ),1], ![3,1]] from rfl]
  rw [eval_bc, eval_ac, eval_ab, eval_sub_abc]
  unfold step
  norm_num [sqnorm, dot, Fin.sum_univ_two,
    Matrix.cons_val_zero, Matrix.cons_val_one, Matrix.head_cons]

/-! ### Unfolded forms of the projection entry points -/

theorem project_origin_of_ne_nil {n : ℕ} (s : BruteForceSimplex n)
    (hne : s.points ≠ []) :
    project_origin s = some ((project_on_subsimplices s.points).1, s) := by
  unfold project_origin do_project_origin
  rw [if_neg (by simpa using hne)]
  rfl

theorem project_origin_and_reduce_eq {n : ℕ} (s : BruteForceSimplex n) :
    project_origin_and_reduce s =
      some ((project_on_subsimplices s.points).1,
        ⟨(project_on_subsimplices s.points).2⟩) := rfl

theorem project_origin_singleton {n : ℕ} (p : Vect n) :
    project_origin (⟨[p]⟩ : BruteForceSimplex n) = some (p, ⟨[p]⟩) := by
  rw [project_origin_of_ne_nil _ (by simp)]
  rw [show project_on_subsimplices ((⟨[p]⟩ : BruteForceSimplex n).points)
      = (p, [p]) from project_on_subsimplices_single p]

/-- C1: for every non-empty simplex state holding at most `n + 1` points,
`project_origin` succeeds, leaves the state unchanged, and returns the point
of minimum Euclidean norm of the convex hull of the currently held points
(the orthogonal projection of the origin onto that hull).  Norm minimality is
expressed through squared norms, which order nonnegative reals identically. -/
theorem C1_project_origin_min_norm {n : ℕ} (s : BruteForceSimplex n)
    (hne : s.points ≠ []) (_hcap : s.points.length ≤ n + 1) :
    ∃ r, project_origin s = some (r, s) ∧
      r ∈ convexHull ℚ {y | y ∈ s.points} ∧
      ∀ q ∈ convexHull ℚ {y | y ∈ s.points}, sqnorm r ≤ sqnorm q := by
  obtain ⟨-, hsub, ⟨w, hwpos, hw1, hcomb⟩, -, hmin⟩ :=
    subsimplices_facts s.points.length s.points le_rfl hne
  refine ⟨(project_on_subsimplices s.points).1,
    project_origin_of_ne_nil s hne, ?_, hmin⟩
  rw [hcomb]
  exact hull_mono_of_sublist hsub
    (combo_mem_convexHull _ w (fun i => (hwpos i).le) hw1)

/-- Witness for C1, at the triangle `{(1,1),(3,1),(1,3)}` in dimension 2. -/
theorem C1_witness :
    ([![(1:ℚ),1], ![3,1], ![1,3]] : List (Vect 2)) ≠ [] ∧
    ([![(1:ℚ),1], ![3,1], ![1,3]] : List (Vect 2)).length ≤ 2 + 1 ∧
    ∃ r, project_origin (⟨[![(1:ℚ),1], ![3,1], ![1,3]]⟩ : BruteForceSimplex 2)
        = some (r, ⟨[![(1:ℚ),1], ![3,1], ![1,3]]⟩) ∧
      r ∈ convexHull ℚ
        {y | y ∈ (⟨[![(1:ℚ),1], ![3,1], ![1,3]]⟩ : BruteForceSimplex 2).points} ∧
      ∀ q ∈ convexHull ℚ
        {y | y ∈ (⟨[![(1:ℚ),1], ![3,1], ![1,3]]⟩ : BruteForceSimplex 2).points},
        sqnorm r ≤ sqnorm q :=
  ⟨by simp, by simp,
    C1_project_origin_min_norm ⟨[![(1:ℚ),1], ![3,1], ![1,3]]⟩
      (by simp) (by simp)⟩

/-- C2: on every non-empty simplex state, `project_origin` and
`project_origin_and_reduce` return exactly the same projection value; they
differ only in that the latter may replace the held list by a sublist while
the former leaves the state unchanged. -/
theorem C2_same_projection {n : ℕ} (s : BruteForceSimplex n)
    (hne : s.points ≠ []) :
    ∃ r red, project_origin s = some (r, s) ∧
      project_origin_and_reduce s = some (r, red) ∧
      List.Sublist red.points s.points := by
  obtain ⟨-, hsub, -, -, -⟩ :=
    subsimplices_facts s.points.length s.points le_rfl hne
  exact ⟨_, _, project_origin_of_ne_nil s hne,
    project_origin_and_reduce_eq s, hsub⟩

/-- Witness for C2, at the two-point state `{(-1,0),(1,0)}`. -/
theorem C2_witness :
    ([![(-1:ℚ),0], ![1,0]] : List (Vect 2)) ≠ [] ∧
    ∃ r red, project_origin (⟨[![(-1:ℚ),0], ![1,0]]⟩ : BruteForceSimplex 2)
        = some (r, ⟨[![(-1:ℚ),0], ![1,0]]⟩) ∧
      project_origin_and_reduce (⟨[![(-1:ℚ),0], ![1,0]]⟩ : BruteForceSimplex 2)
        = some (r, red) ∧
      List.Sublist red.points
        (⟨[![(-1:ℚ),0], ![1,0]]⟩ : BruteForceSimplex 2).points :=
  ⟨by simp, C2_same_projection ⟨[![(-1:ℚ),0], ![1,0]]⟩ (by simp)⟩

/-- C3 amended: after `project_origin_and_reduce` on a non-empty state, the
retained point list is a non-empty affinely independent sublist of the
previous points, and the returned projection is a strictly positive convex
combination of the retained points — so their hull contains it and no proper
subset of the retained points does.  The claim's stronger reading — that the
retained list is the vertex set of the minimal face of the previous hull
containing the projection — fails; see the counterexample. -/
theorem C3_reduce_invariant {n : ℕ} (s : BruteForceSimplex n)
    (hne : s.points ≠ []) :
    ∃ r red, project_origin_and_reduce s = some (r, red) ∧
      List.Sublist red.points s.points ∧ red.points ≠ [] ∧
      AffineIndependent ℚ red.points.get ∧
      (∃ w : Fin red.points.length → ℚ,
        (∀ i, 0 < w i) ∧ ∑ i, w i = 1 ∧ r = combo red.points w) ∧
      r ∈ convexHull ℚ {y | y ∈ red.points} := by
  obtain ⟨hne2, hsub, ⟨w, hwpos, hw1, hcomb⟩, haff, -⟩ :=
    subsimplices_facts s.points.length s.points le_rfl hne
  refine ⟨_, _, project_origin_and_reduce_eq s, hsub, hne2, haff,
    ⟨w, hwpos, hw1, hcomb⟩, ?_⟩
  rw [hcomb]
  exact combo_mem_convexHull _ w (fun i => (hwpos i).le) hw1

/-- Witness for the amended C3, at the state `{(0,0),(2,0),(0,2)}`. -/
theorem C3_witness :
    ([![(0:ℚ),0], ![2,0], ![0,2]] : List (Vect 2)) ≠ [] ∧
    ∃ r red, project_origin_and_reduce
        (⟨[![(0:ℚ),0], ![2,0], ![0,2]]⟩ : BruteForceSimplex 2)
        = some (r, red) ∧
      List.Sublist red.points
        (⟨[![(0:ℚ),0], ![2,0], ![0,2]]⟩ : BruteForceSimplex 2).points ∧
      red.points ≠ [] ∧
      AffineIndependent ℚ red.points.get ∧
      (∃ w : Fin red.points.length → ℚ,
        (∀ i, 0 < w i) ∧ ∑ i, w i = 1 ∧ r = combo red.points w) ∧
      r ∈ convexHull ℚ {y | y ∈ red.points} :=
  ⟨by simp, C3_reduce_invariant ⟨[![(0:ℚ),0], ![2,0], ![0,2]]⟩ (by simp)⟩

/-- C3 counterexample: on the held points `{(-1,1),(3,1),(1,1)}` (collinear;
`(1,1)` is the midpoint of the other two) the returned projection is `(0,1)`
and the retained list is `[(-1,1),(1,1)]`.  The hull of the previous points is
the segment from `(-1,1)` to `(3,1)`; its unique face containing `(0,1)` is
the whole segment, whose vertex set is `{(-1,1),(3,1)}`.  The retained list
instead contains `(1,1)`, a point interior to that segment (it lies in the
hull of the other two held points and differs from both), so the retained
list is not the vertex set of the minimal face containing the projection. -/
theorem C3_counterexample :
    project_origin_and_reduce
        (⟨[![(-1:ℚ),1], ![3,1], ![1,1]]⟩ : BruteForceSimplex 2)
      = some (![0,1], ⟨[![(-1:ℚ),1], ![1,1]]⟩) ∧
    ![(1:ℚ),1] ∈ convexHull ℚ {y : Vect 2 | y ∈ [![(-1:ℚ),1], ![3,1]]} ∧
    (![(1:ℚ),1] : Vect 2) ≠ ![(-1:ℚ),1] ∧
    (![(1:ℚ),1] : Vect 2) ≠ ![3,1] := by
  refine ⟨?_, ?_, ?_, ?_⟩
  · rw [project_origin_and_reduce_eq]
    rw [show project_on_subsimplices
        ((⟨[![(-1:ℚ),1], ![3,1], ![1,1]]⟩ : BruteForceSimplex 2).points)
        = (![0,1], [![(-1:ℚ),1], ![1,1]]) from eval_abc]
  · have hset : {y : Vect 2 | y ∈ [![(-1:ℚ),1], ![3,1]]}
        = {![(-1:ℚ),1], ![3,1]} := by
      ext y
      simp
    rw [hset]
    apply mem_convexHull_of_exists_fintype
      (fun _ : Fin 2 => (1 : ℚ) / 2)
      (fun i => if i.1 = 0 then ![(-1:ℚ),1] else ![3,1])
    · intro i
      norm_num
    · norm_num [Fin.sum_univ_two]
    · intro i
      by_cases h : i.1 = 0 <;> simp [h]
    · rw [Fin.sum_univ_two]
      norm_num
  · intro h
    have h2 := congrFun h 0
    norm_num at h2
  · intro h
    have h2 := congrFun h 0
    norm_num at h2

/-- C4: for a subsimplex of `k ≥ 1` points, the per-subsimplex solve returns
`none` exactly when the `k×k` system (first row all ones; row `i ≥ 1`, column
`j` equal to `dot(p_i - p_0, p_j)`) is singular or some unnormalized weight
from the first column of the inverse is `≤ 0`; when it succeeds the weights
are strictly positive, sum to exactly `1` (so the normalizing division is by
the nonzero scalar `1` — in exact arithmetic no division by zero and no
NaN/infinite value can arise), and the candidate is the weight-sum-normalized
combination of the points. -/
theorem C4_subsimplex_solve {n : ℕ} (points : List (Vect n))
    (hne : points ≠ []) :
    (project_on_subsimplex points = none ↔
      (simplexMat points).det = 0 ∨
      ∃ i, invFirstCol (simplexMat points) i ≤ 0) ∧
    (∀ i j : Fin points.length, i.1 = 0 → simplexMat points i j = 1) ∧
    (∀ i j : Fin points.length, i.1 ≠ 0 → simplexMat points i j =
      dot (points.get i - points.get ⟨0, i.pos⟩) (points.get j)) ∧
    ((simplexMat points).det ≠ 0 →
      (simplexMat points).mulVec (invFirstCol (simplexMat points)) =
        fun i => if i.1 = 0 then 1 else 0) ∧
    (∀ r, project_on_subsimplex points = some r →
      (∀ i, 0 < invFirstCol (simplexMat points) i) ∧
      ∑ i, invFirstCol (simplexMat points) i = 1 ∧
      (∑ i, invFirstCol (simplexMat points) i) ≠ 0 ∧
      r = vdiv (∑ i, invFirstCol (simplexMat points) i • points.get i)
            (∑ i, invFirstCol (simplexMat points) i)) := by
  have hk : 0 < points.length := List.length_pos.2 hne
  refine ⟨project_on_subsimplex_eq_none points, ?_, ?_, ?_, ?_⟩
  · intro i j h
    simp [simplexMat, h]
  · intro i j h
    simp [simplexMat, h, sub_dot]
  · intro hdet
    funext i
    exact invFirstCol_mulVec (simplexMat points) hdet hk i
  · intro r hr
    obtain ⟨hdet, hpos, hcomb⟩ :=
      (project_on_subsimplex_eq_some points r hne).1 hr
    have hsum := weights_sum_one points hne hdet
    refine ⟨hpos, hsum, by rw [hsum]; norm_num, ?_⟩
    rw [hsum, vdiv_one]
    exact hcomb

/-- Witness for C4, at the single-point subsimplex `[(1,0)]`. -/
theorem C4_witness :
    ([![(1:ℚ),0]] : List (Vect 2)) ≠ [] ∧
    ((project_on_subsimplex ([![(1:ℚ),0]] : List (Vect 2)) = none ↔
      (simplexMat ([![(1:ℚ),0]] : List (Vect 2))).det = 0 ∨
      ∃ i, invFirstCol (simplexMat ([![(1:ℚ),0]] : List (Vect 2))) i ≤ 0) ∧
    (∀ i j : Fin ([![(1:ℚ),0]] : List (Vect 2)).length, i.1 = 0 →
      simplexMat ([![(1:ℚ),0]] : List (Vect 2)) i j = 1) ∧
    (∀ i j : Fin ([![(1:ℚ),0]] : List (Vect 2)).length, i.1 ≠ 0 →
      simplexMat ([![(1:ℚ),0]] : List (Vect 2)) i j =
      dot (([![(1:ℚ),0]] : List (Vect 2)).get i -
        ([![(1:ℚ),0]] : List (Vect 2)).get ⟨0, i.pos⟩)
        (([![(1:ℚ),0]] : List (Vect 2)).get j)) ∧
    ((simplexMat ([![(1:ℚ),0]] : List (Vect 2))).det ≠ 0 →
      (simplexMat ([![(1:ℚ),0]] : List (Vect 2))).mulVec
          (invFirstCol (simplexMat ([![(1:ℚ),0]] : List (Vect 2)))) =
        fun i => if i.1 = 0 then 1 else 0) ∧
    (∀ r, project_on_subsimplex ([![(1:ℚ),0]] : List (Vect 2)) = some r →
      (∀ i, 0 < invFirstCol (simplexMat ([![(1:ℚ),0]] : List (Vect 2))) i) ∧
      ∑ i, invFirstCol (simplexMat ([![(1:ℚ),0]] : List (Vect 2))) i = 1 ∧
      (∑ i, invFirstCol (simplexMat ([![(1:ℚ),0]] : List (Vect 2))) i) ≠ 0 ∧
      r = vdiv (∑ i, invFirstCol (simplexMat ([![(1:ℚ),0]] : List (Vect 2))) i
            • ([![(1:ℚ),0]] : List (Vect 2)).get i)
            (∑ i, invFirstCol (simplexMat ([![(1:ℚ),0]] : List (Vect 2))) i))) :=
  ⟨by simp, C4_subsimplex_solve ([![(1:ℚ),0]] : List (Vect 2)) (by simp)⟩

/-- C5 amended: projecting the origin of an empty simplex is a fatal
precondition violation (`fail!`, embedded as `none`) for `project_origin`,
and only for the empty state; `project_origin_and_reduce` however performs no
emptiness check and never aborts — on an empty simplex it runs through the
search and returns a meaningless value (a NaN vector in the floating-point
original, the zero vector in this exact embedding). -/
theorem C5_empty_projection :
    (∀ (n : ℕ) (s : BruteForceSimplex n),
      project_origin s = none ↔ s.points = []) ∧
    (∀ (n : ℕ) (s : BruteForceSimplex n),
      project_origin_and_reduce s ≠ none) := by
  constructor
  · intro n s
    rcases s with ⟨l⟩
    cases l <;> simp [project_origin]
  · intro n s h
    exact Option.noConfusion h

/-- Witness for the amended C5, at the empty state in dimension 2. -/
theorem C5_witness :
    project_origin (⟨[]⟩ : BruteForceSimplex 2) = none ∧
    project_origin_and_reduce (⟨[]⟩ : BruteForceSimplex 2) ≠ none :=
  ⟨(C5_empty_projection.1 2 ⟨[]⟩).2 rfl, C5_empty_projection.2 2 ⟨[]⟩⟩

theorem project_on_subsimplex_nil {n : ℕ} :
    project_on_subsimplex ([] : List (Vect n)) = some 0 := by
  haveI hE : IsEmpty (Fin ([] : List (Vect n)).length) :=
    ⟨fun i => by simpa using i.2⟩
  have hdet : ¬((simplexMat ([] : List (Vect n))).det = 0) := by
    rw [Matrix.det_isEmpty]
    norm_num
  have hall : ∀ i : Fin ([] : List (Vect n)).length,
      0 < invFirstCol (simplexMat ([] : List (Vect n))) i :=
    fun i => (hE.false i).elim
  unfold project_on_subsimplex
  rw [if_neg hdet, if_pos hall]
  congr 1
  rw [Finset.univ_eq_empty, Finset.sum_empty, Finset.sum_empty]
  funext i
  simp [vdiv]

theorem project_on_subsimplices_nil {n : ℕ} :
    project_on_subsimplices ([] : List (Vect n)) = (0, []) := by
  rw [project_on_subsimplices_eq _ (by simp)]
  rw [show List.range ([] : List (Vect n)).length = [] from rfl]
  rw [List.foldl_nil, project_on_subsimplex_nil]
  rfl

/-- C5 counterexample: the claim asserts that *both* origin-projection
operations abort on an empty simplex.  `project_origin` does (first
conjunct), but `project_origin_and_reduce` has no emptiness check and does
not abort: it returns a value (here the junk projection `0` with an empty
retained list), so the claim as stated is false. -/
theorem C5_counterexample :
    project_origin (⟨[]⟩ : BruteForceSimplex 2) = none ∧
    project_origin_and_reduce (⟨[]⟩ : BruteForceSimplex 2)
      = some (0, ⟨[]⟩) := by
  constructor
  · rfl
  · rw [project_origin_and_reduce_eq]
    rw [show project_on_subsimplices ((⟨[]⟩ : BruteForceSimplex 2).points)
        = ((0 : Vect 2), []) from project_on_subsimplices_nil]

/-- C6: on any state respecting the `n + 1` capacity invariant, the
`Simplex`-contract `add_point` appends the point to the held list and fails
fatally (a failed `assert!`, embedded as `none`) exactly when the simplex
already holds `n + 1` points; consequently the held size never exceeds
`n + 1`.  The statement is dimension-generic, so it covers `n = 2` and
`n = 3` in particular. -/
theorem C6_add_point_capacity {n : ℕ} (s : BruteForceSimplex n)
    (pt : Vect n) (hcap : s.points.length ≤ n + 1) :
    (add_point s pt = none ↔ s.points.length = n + 1) ∧
    (∀ s2, add_point s pt = some s2 →
      s2.points = s.points ++ [pt] ∧ s2.points.length ≤ n + 1) := by
  unfold add_point
  by_cases h : s.points.length ≤ n
  · rw [if_pos h]
    constructor
    · constructor
      · intro hh
        cases hh
      · intro hh
        omega
    · intro s2 hs2
      injection hs2 with hh
      subst hh
      constructor
      · rfl
      · rw [List.length_append]
        simp
        omega
  · rw [if_neg h]
    constructor
    · constructor
      · intro _
        omega
      · intro _
        rfl
    · intro s2 hs2
      cases hs2

/-- Witness for C6, adding a fourth point to a full 3-point state in
dimension 2 (fails) — instantiating the theorem at a concrete state. -/
theorem C6_witness :
    (⟨[![(0:ℚ),0], ![1,0], ![0,1]]⟩ : BruteForceSimplex 2).points.length
        ≤ 2 + 1 ∧
    ((add_point (⟨[![(0:ℚ),0], ![1,0], ![0,1]]⟩ : BruteForceSimplex 2) ![1,1]
        = none ↔
      (⟨[![(0:ℚ),0], ![1,0], ![0,1]]⟩ : BruteForceSimplex 2).points.length
        = 2 + 1) ∧
    (∀ s2, add_point
        (⟨[![(0:ℚ),0], ![1,0], ![0,1]]⟩ : BruteForceSimplex 2) ![1,1]
        = some s2 →
      s2.points = (⟨[![(0:ℚ),0], ![1,0], ![0,1]]⟩ :
        BruteForceSimplex 2).points ++ [![1,1]] ∧
      s2.points.length ≤ 2 + 1)) :=
  ⟨by simp, C6_add_point_capacity ⟨[![(0:ℚ),0], ![1,0], ![0,1]]⟩ ![1,1]
    (by simp)⟩

/-! ### Linear combinations of annotated points (C7) -/

/-- A formal linear combination of annotated points, folded up with the
`Mul<Scalar>` and `Add` impls of `AnnotatedPoint`. -/
def aLinComb {n : ℕ} (l : List (ℚ × AnnotatedPoint n)) : AnnotatedPoint n :=
  l.foldr (fun c acc => aAdd (aMul c.2 c.1) acc) (aZero n)

/-- The same linear combination on plain vectors. -/
def vLinComb {n : ℕ} (l : List (ℚ × Vect n)) : Vect n :=
  l.foldr (fun c acc => c.1 • c.2 + acc) 0

/-- C7: every vector-space operation of `AnnotatedPoint` acts identically and
independently on the combined `point` field and on both `orig1`/`orig2`
witness fields; consequently any linear (hence any convex) combination of
annotated points has as combined point that combination of the combined
points and as witnesses the same combination of the per-primitive witnesses;
and equality as well as epsilon comparison compare only the combined point,
never the witnesses (two annotated points with different witnesses can be
equal). -/
theorem C7_annotated_componentwise :
    (∀ (n : ℕ) (a b : AnnotatedPoint n),
      (aAdd a b).point = a.point + b.point ∧
      (aAdd a b).orig1 = a.orig1 + b.orig1 ∧
      (aAdd a b).orig2 = a.orig2 + b.orig2) ∧
    (∀ (n : ℕ) (a b : AnnotatedPoint n),
      (aSub a b).point = a.point - b.point ∧
      (aSub a b).orig1 = a.orig1 - b.orig1 ∧
      (aSub a b).orig2 = a.orig2 - b.orig2) ∧
    (∀ (n : ℕ) (a : AnnotatedPoint n),
      (aNeg a).point = -a.point ∧
      (aNeg a).orig1 = -a.orig1 ∧
      (aNeg a).orig2 = -a.orig2) ∧
    (∀ (n : ℕ) (a : AnnotatedPoint n) (c : ℚ),
      (aMul a c).point = c • a.point ∧
      (aMul a c).orig1 = c • a.orig1 ∧
      (aMul a c).orig2 = c • a.orig2) ∧
    (∀ (n : ℕ) (a : AnnotatedPoint n) (c : ℚ),
      (aDiv a c).point = vdiv a.point c ∧
      (aDiv a c).orig1 = vdiv a.orig1 c ∧
      (aDiv a c).orig2 = vdiv a.orig2 c) ∧
    (∀ (n : ℕ) (l : List (ℚ × AnnotatedPoint n)),
      (aLinComb l).point = vLinComb (l.map fun c => (c.1, c.2.point)) ∧
      (aLinComb l).orig1 = vLinComb (l.map fun c => (c.1, c.2.orig1)) ∧
      (aLinComb l).orig2 = vLinComb (l.map fun c => (c.1, c.2.orig2))) ∧
    (∀ (n : ℕ) (a b : AnnotatedPoint n), aEq a b ↔ a.point = b.point) ∧
    (∀ (n : ℕ) (a b : AnnotatedPoint n) (eps : ℚ),
      aApproxEqEps a b eps ↔ approx_eq_eps a.point b.point eps) ∧
    (∃ a b : AnnotatedPoint 2, aEq a b ∧ aApproxEqEps a b 0 ∧
      a.orig1 ≠ b.orig1 ∧ a.orig2 ≠ b.orig2) := by
  refine ⟨fun n a b => ⟨rfl, rfl, rfl⟩, fun n a b => ⟨rfl, rfl, rfl⟩,
    fun n a => ⟨rfl, rfl, rfl⟩, fun n a c => ⟨rfl, rfl, rfl⟩,
    fun n a c => ⟨rfl, rfl, rfl⟩, ?_, fun n a b => Iff.rfl,
    fun n a b eps => Iff.rfl, ?_⟩
  · intro n l
    induction l with
    | nil => exact ⟨rfl, rfl, rfl⟩
    | cons hd tl htl =>
      obtain ⟨h1, h2, h3⟩ := htl
      refine ⟨?_, ?_, ?_⟩
      · show (aMul hd.2 hd.1).point + (aLinComb tl).point = _
        rw [h1]
        rfl
      · show (aMul hd.2 hd.1).orig1 + (aLinComb tl).orig1 = _
        rw [h2]
        rfl
      · show (aMul hd.2 hd.1).orig2 + (aLinComb tl).orig2 = _
        rw [h3]
        rfl
  · refine ⟨⟨![1,0], ![2,0], ![5,5]⟩, ⟨![3,0], ![4,0], ![5,5]⟩,
      rfl, fun i => by norm_num, ?_, ?_⟩
    · intro h
      have h2 := congrFun h 0
      norm_num at h2
    · intro h
      have h2 := congrFun h 0
      norm_num at h2

/-- C8 amended: `translate_by v` rigidly shifts every held point by `v`, and
projecting the origin commutes with translation for a simplex holding a
single point; for larger simplices commutation fails (the minimum-norm point
of a translated hull is not the translated minimum-norm point), see the
counterexample. -/
theorem C8_translate_commutes_single :
    (∀ (n : ℕ) (s : BruteForceSimplex n) (v : Vect n),
      (translate_by s v).points = s.points.map fun p => p + v) ∧
    (∀ (n : ℕ) (p v : Vect n),
      ∃ r rt, project_origin (⟨[p]⟩ : BruteForceSimplex n)
          = some (r, ⟨[p]⟩) ∧
        project_origin (translate_by (⟨[p]⟩ : BruteForceSimplex n) v)
          = some (rt, translate_by (⟨[p]⟩ : BruteForceSimplex n) v) ∧
        rt = r + v) := by
  constructor
  · intro n s v
    rfl
  · intro n p v
    refine ⟨p, p + v, project_origin_singleton p, ?_, rfl⟩
    show project_origin (⟨[p + v]⟩ : BruteForceSimplex n)
      = some (p + v, (⟨[p + v]⟩ : BruteForceSimplex n))
    exact project_origin_singleton (p + v)

/-- C8 counterexample: for the segment `{(-1,0),(1,0)}` and `v = (10,0)`, the
original projection is `(0,0)`, but projecting the translated simplex
`{(9,0),(11,0)}` yields `(9,0)`, not `(0,0) + (10,0) = (10,0)`:
`translate_by` does not commute with `project_origin`. -/
theorem C8_counterexample :
    project_origin (⟨[![(-1:ℚ),0], ![1,0]]⟩ : BruteForceSimplex 2)
      = some (![0,0], ⟨[![(-1:ℚ),0], ![1,0]]⟩) ∧
    translate_by (⟨[![(-1:ℚ),0], ![1,0]]⟩ : BruteForceSimplex 2) ![10,0]
      = ⟨[![(9:ℚ),0], ![11,0]]⟩ ∧
    project_origin (⟨[![(9:ℚ),0], ![11,0]]⟩ : BruteForceSimplex 2)
      = some (![9,0], ⟨[![(9:ℚ),0], ![11,0]]⟩) ∧
    (![(9:ℚ),0] : Vect 2) ≠ ![0,0] + ![10,0] := by
  refine ⟨?_, ?_, ?_, ?_⟩
  · rw [project_origin_of_ne_nil _ (by simp)]
    rw [show project_on_subsimplices
        ((⟨[![(-1:ℚ),0], ![1,0]]⟩ : BruteForceSimplex 2).points)
        = (![0,0], [![(-1:ℚ),0], ![1,0]]) from eval_seg0]
  · have h1 : (![(-1:ℚ),0] + ![10,0] : Vect 2) = ![9,0] := by
      funext i
      fin_cases i <;> norm_num
    have h2 : (![(1:ℚ),0] + ![10,0] : Vect 2) = ![11,0] := by
      funext i
      fin_cases i <;> norm_num
    show (⟨[![(-1:ℚ),0] + ![10,0], ![1,0] + ![10,0]]⟩ : BruteForceSimplex 2)
      = ⟨[![(9:ℚ),0], ![11,0]]⟩
    rw [h1, h2]
  · rw [project_origin_of_ne_nil _ (by simp)]
    rw [show project_on_subsimplices
        ((⟨[![(9:ℚ),0], ![11,0]]⟩ : BruteForceSimplex 2).points)
        = (![9,0], [![(9:ℚ),0]]) from eval_seg10]
  · intro h
    have h2 := congrFun h 0
    norm_num at h2

/-- Witness for the amended C8, at `p = (1,2)`, `v = (3,4)` in dimension 2. -/
theorem C8_witness :
    ((translate_by (⟨[![(1:ℚ),2]]⟩ : BruteForceSimplex 2) ![3,4]).points
      = (⟨[![(1:ℚ),2]]⟩ : BruteForceSimplex 2).points.map fun p => p + ![3,4]) ∧
    ∃ r rt, project_origin (⟨[![(1:ℚ),2]]⟩ : BruteForceSimplex 2)
        = some (r, ⟨[![(1:ℚ),2]]⟩) ∧
      project_origin (translate_by (⟨[![(1:ℚ),2]]⟩ : BruteForceSimplex 2) ![3,4])
        = some (rt, translate_by (⟨[![(1:ℚ),2]]⟩ : BruteForceSimplex 2) ![3,4]) ∧
      rt = r + ![3,4] :=
  ⟨C8_translate_commutes_single.1 2 ⟨[![(1:ℚ),2]]⟩ ![3,4],
    C8_translate_commutes_single.2 2 ![1,2] ![3,4]⟩

/-- C9 amended: the query operations (`dimension`, `max_sq_len`,
`contains_point`) take the state immutably (`&self` in the source, embedded
as pure functions of the state), and among the projection operations only
`project_origin_and_reduce` replaces the point list — with the reduction, a
sublist of the previous points — while `project_origin` returns the state
unchanged.  The claim's stronger statement that *every* other operation
leaves the point list unchanged is false: `reset`, `add_point` and
`translate_by` modify the list exactly as their contracts state (see the
counterexample). -/
theorem C9_mutation_profile :
    (∀ (n : ℕ) (s : BruteForceSimplex n) (r : Vect n)
        (s2 : BruteForceSimplex n),
      project_origin s = some (r, s2) → s2 = s) ∧
    (∀ (n : ℕ) (s : BruteForceSimplex n),
      project_origin_and_reduce s =
        some ((project_on_subsimplices s.points).1,
          ⟨(project_on_subsimplices s.points).2⟩)) ∧
    (∀ (n : ℕ) (s : BruteForceSimplex n), s.points ≠ [] →
      ∀ (r : Vect n) (red : BruteForceSimplex n),
        project_origin_and_reduce s = some (r, red) →
        List.Sublist red.points s.points) ∧
    (∀ (n : ℕ) (s : BruteForceSimplex n) (p : Vect n),
      (reset s p).points = [p]) ∧
    (∀ (n : ℕ) (s : BruteForceSimplex n) (p : Vect n)
        (s2 : BruteForceSimplex n),
      add_point s p = some s2 → s2.points = s.points ++ [p]) ∧
    (∀ (n : ℕ) (s : BruteForceSimplex n) (v : Vect n),
      (translate_by s v).points = s.points.map fun p => p + v) := by
  refine ⟨?_, ?_, ?_, ?_, ?_, ?_⟩
  · intro n s r s2 h
    rcases hp : s.points with _ | ⟨x, xs⟩
    · rw [project_origin, if_pos (by simp [hp])] at h
      cases h
    · rw [project_origin_of_ne_nil s (by simp [hp])] at h
      injection h with hh
      injection hh with h1 h2
      exact h2.symm
  · intro n s
    exact project_origin_and_reduce_eq s
  · intro n s hne r red h
    obtain ⟨-, hsub, -, -, -⟩ :=
      subsimplices_facts s.points.length s.points le_rfl hne
    rw [project_origin_and_reduce_eq] at h
    injection h with hh
    injection hh with h1 h2
    rw [← h2]
    exact hsub
  · intro n s p
    rfl
  · intro n s p s2 h
    unfold add_point at h
    by_cases hc : s.points.length ≤ n
    · rw [if_pos hc] at h
      injection h with hh
      rw [← hh]
    · rw [if_neg hc] at h
      cases h
  · intro n s v
    rfl

/-- Witness for the amended C9, instantiating the projection frame conditions
at the one-point state `{(1,0)}` and the `add_point` effect at the empty
state, in dimension 2. -/
theorem C9_witness :
    ((⟨[![(1:ℚ),0]]⟩ : BruteForceSimplex 2) =
      (⟨[![(1:ℚ),0]]⟩ : BruteForceSimplex 2)) ∧
    ((⟨[![(0:ℚ),0]]⟩ : BruteForceSimplex 2).points
      = (⟨[]⟩ : BruteForceSimplex 2).points ++ [![0,0]]) :=
  ⟨C9_mutation_profile.1 2 ⟨[![(1:ℚ),0]]⟩ ![1,0] ⟨[![(1:ℚ),0]]⟩
      (project_origin_singleton ![1,0]),
    C9_mutation_profile.2.2.2.2.1 2 ⟨[]⟩ ![0,0] ⟨[![(0:ℚ),0]]⟩ rfl⟩

/-- C9 counterexample: `add_point` — an operation other than
`project_origin_and_reduce` — changes the held point list (it appends), so
"every other operation leaves the point list unchanged" is false as stated. -/
theorem C9_counterexample :
    add_point (⟨[]⟩ : BruteForceSimplex 2) ![0,0]
      = some ⟨[![(0:ℚ),0]]⟩ ∧
    ([![(0:ℚ),0]] : List (Vect 2)) ≠ (⟨[]⟩ : BruteForceSimplex 2).points := by
  constructor
  · rfl
  · simp

/-- C10: `dimension` computes `points.len() - 1` in `w`-bit unsigned machine
arithmetic: on a non-empty simplex (with representable length) it returns the
count minus one, but on an empty simplex it does not fail — the subtraction
`0 - 1` wraps modulo `2^w` and returns the maximum unsigned value
`2^w - 1`. -/
theorem C10_dimension_wraps (w : ℕ) {n : ℕ} (s : BruteForceSimplex n)
    (_hw : 0 < w) (hlen : s.points.length < 2 ^ w) :
    (s.points ≠ [] → dimension w s = s.points.length - 1) ∧
    (s.points = [] → dimension w s = 2 ^ w - 1) := by
  have h2 : 1 ≤ 2 ^ w := Nat.one_le_two_pow
  constructor
  · intro hne
    have hpos : 0 < s.points.length := List.length_pos.2 hne
    unfold dimension
    have heq : s.points.length + (2 ^ w - 1)
        = (s.points.length - 1) + 2 ^ w := by omega
    rw [heq, Nat.add_mod_right, Nat.mod_eq_of_lt (by omega)]
  · intro hemp
    unfold dimension
    rw [hemp]
    rw [show ([] : List (Vect n)).length = 0 from rfl]
    rw [Nat.zero_add, Nat.mod_eq_of_lt (by omega)]

/-- Witness for C10: at width 64 the empty state yields `2^64 - 1` and a
one-point state yields `0`. -/
theorem C10_witness :
    (0 < 64 ∧ (⟨[]⟩ : BruteForceSimplex 2).points.length < 2 ^ 64 ∧
      ((⟨[]⟩ : BruteForceSimplex 2).points ≠ [] →
        dimension 64 (⟨[]⟩ : BruteForceSimplex 2)
          = (⟨[]⟩ : BruteForceSimplex 2).points.length - 1) ∧
      ((⟨[]⟩ : BruteForceSimplex 2).points = [] →
        dimension 64 (⟨[]⟩ : BruteForceSimplex 2) = 2 ^ 64 - 1)) ∧
    (0 < 64 ∧ (⟨[![(5:ℚ),0]]⟩ : BruteForceSimplex 2).points.length < 2 ^ 64 ∧
      ((⟨[![(5:ℚ),0]]⟩ : BruteForceSimplex 2).points ≠ [] →
        dimension 64 (⟨[![(5:ℚ),0]]⟩ : BruteForceSimplex 2)
          = (⟨[![(5:ℚ),0]]⟩ : BruteForceSimplex 2).points.length - 1) ∧
      ((⟨[![(5:ℚ),0]]⟩ : BruteForceSimplex 2).points = [] →
        dimension 64 (⟨[![(5:ℚ),0]]⟩ : BruteForceSimplex 2) = 2 ^ 64 - 1)) :=
  ⟨⟨by norm_num, by norm_num,
      C10_dimension_wraps 64 ⟨[]⟩ (by norm_num) (by norm_num)⟩,
    ⟨by norm_num, by norm_num,
      C10_dimension_wraps 64 ⟨[![(5:ℚ),0]]⟩ (by norm_num) (by norm_num)⟩⟩
